import Mathlib

/-!
Verification of the knowledge-mcp repository against its specification.

The development shallowly embeds the two core components of the repository:

* the hierarchical chunker and incremental sync engine of `scripts/ingest.ts`
  (`chunkLargeFile`, `getEmbeddings`, and the diff/apply logic of `ingestSource`);
* the hybrid query router and lookup operations of `src/index.ts`
  (`detectQueryType`, `searchDocuments`, `getDocument`).

Strings are modelled as lists of characters (`Str`), matching JavaScript's
per-code-unit `String.length` on the ASCII inputs used throughout.  External
collaborators (PostgreSQL store, Cloudflare Workers AI) are modelled as explicit
state (lists of rows) and response oracles.  JavaScript regular expressions used
by the source are embedded by executable functions implementing their match
semantics (documented at each definition).
-/

namespace KnowledgeMcp

/-- Strings as lists of characters; JS `s.length` is `List.length`,
JS `s.slice(0, n)` is `List.take n`, concatenation is `List.append`. -/
abbrev Str := List Char

/-- Embed a Lean string literal into the model. -/
def str (s : String) : Str := s.data

/-- JS whitespace (the `\s` character class and `String.prototype.trim`):
space, tab, line feed, carriage return, vertical tab, form feed,
no-break space, BOM, and the Unicode line/paragraph separators. -/
def isJsWS (c : Char) : Bool :=
  c = ' ' || c = '\t' || c = '\n' || c = '\r' || c = '\x0b' || c = '\x0c' ||
  c = ' ' || c = '﻿' || c = ' ' || c = ' '

/-- JS regular-expression line terminators (what `.` does not match and what
`^` in multiline mode anchors after): LF, CR, U+2028, U+2029. -/
def isLineTerm (c : Char) : Bool :=
  c = '\n' || c = '\r' || c = ' ' || c = ' '

/-- JS `String.prototype.trim`: drop whitespace from both ends. -/
def jsTrim (s : Str) : Str :=
  (s.dropWhile isJsWS).rdropWhile isJsWS

-- --- Config constants from scripts/ingest.ts ---

def CHUNK_CHAR_LIMIT : Nat := 10000

def LARGE_FILE_THRESHOLD : Nat := 100000

def BATCH_SIZE : Nat := 10

-- --- Embedding of the JS regex matches used by chunkLargeFile ---

/-- Backtracking step of matching `#{n}\s+(.+)`: when the greedy `\s+` consumed
the whitespace run `run` up to the end of the string, the engine gives
characters back to `.+`.  `btCap l` finds the latest position in `l` whose
character is not a line terminator and returns the greedy `.+` capture from
there (`l` is the run without its first character, which `\s+` must keep). -/
def btCap : Str → Option Str
  | [] => none
  | c :: rest =>
    match btCap rest with
    | some cap => some cap
    | none =>
      if isLineTerm c then none
      else some ((c :: rest).takeWhile (fun d => ¬ (isLineTerm d)))

/-- Match the JS regex `#{n}\s+(.+)` at the current position (assumed to be a
line start), returning the capture group: `n` hash marks, then a nonempty
greedy whitespace run, then a nonempty capture of non-line-terminator
characters (with backtracking when `\s+` reaches the end of the string). -/
def matchHeaderAt (n : Nat) (s : Str) : Option Str :=
  if (List.replicate n '#').isPrefixOf s then
    let rest := s.drop n
    let run := rest.takeWhile isJsWS
    if run.length = 0 then none
    else
      match rest.drop run.length with
      | [] => btCap (run.drop 1)
      | c :: tail => some ((c :: tail).takeWhile (fun d => ¬ (isLineTerm d)))
  else none

/-- Scan for the first multiline match of `^#{n}\s+(.+)` — try `matchHeaderAt`
at the string start and after every line terminator, in order.  This embeds
`content.match(/^#\s+(.+)/m)` and the `##`/`###` variants. -/
def findHC (n : Nat) : Str → Bool → Option Str
  | [], _ => none
  | c :: rest, atStart =>
    match (if atStart then matchHeaderAt n (c :: rest) else none) with
    | some cap => some cap
    | none => findHC n rest (isLineTerm c)

/-- First multiline match of `^#{n}\s+(.+)` in `s` (position 0 is a line start). -/
def findHeaderCapture (n : Nat) (s : Str) : Option Str := findHC n s true

/-- Split at line starts followed by `marker`, embedding
`content.split(/^(?=## )/m)` (and the `### ` variant): a cut happens directly
after a line-terminator character whenever the remainder begins with `marker`.
A zero-width match at position 0 produces no leading empty segment, exactly as
JS `String.prototype.split` behaves. -/
def splitMarker (marker : Str) : Str → Str → List Str
  | [], acc => [acc.reverse]
  | c :: rest, acc =>
    if isLineTerm c ∧ marker.isPrefixOf rest then
      (c :: acc).reverse :: splitMarker marker rest []
    else
      splitMarker marker rest (c :: acc)

/-- `content.split(/^(?=## )/m)` from `chunkLargeFile`. -/
def splitSections (s : Str) : List Str := splitMarker (str "## ") s []

/-- `section.split(/^(?=### )/m)` from `chunkLargeFile`. -/
def splitSubsections (s : Str) : List Str := splitMarker (str "### ") s []

/-- `subsection.split(/\n\n+/)`: split on maximal runs of two or more
line feeds.  Segments may be empty (leading/trailing separators).
`skipping = true` means the scanner is inside a separator run and drops the
remaining line feeds of the run. -/
def splitParasGo : Str → Str → Bool → List Str
  | [], acc, _ => [acc.reverse]
  | c :: rest, acc, skipping =>
    if skipping ∧ c = '\n' then
      splitParasGo rest acc true
    else if c = '\n' ∧ rest.head? = some '\n' then
      acc.reverse :: splitParasGo rest [] true
    else
      splitParasGo rest (c :: acc) false

/-- The paragraph split of `chunkLargeFile`. -/
def splitParas (s : Str) : List Str := splitParasGo s [] false

-- --- The chunker itself (chunkLargeFile, scripts/ingest.ts lines 137-226) ---

/-- One emitted chunk: `{ filename, content }`. -/
structure Chunk where
  filename : Str
  content : Str
deriving DecidableEq, Repr

/-- Build a chunk whose content is a breadcrumb `pre` followed by `body`.
Every push in `chunkLargeFile` has this shape. -/
def mkChunk (name pre body : Str) : Chunk := ⟨name, pre ++ body⟩

/-- `const prefix = docTitle ? "> docTitle > path\n\n" : ""`. -/
def breadcrumb (docTitle path : Str) : Str :=
  if docTitle = [] then []
  else str "> " ++ docTitle ++ str " > " ++ path ++ str "\n\n"

/-- `titleMatch ? titleMatch[1].trim() : ""` for `/^#\s+(.+)/m`. -/
def extractDocTitle (content : Str) : Str :=
  match findHeaderCapture 1 content with
  | some cap => jsTrim cap
  | none => []

/-- `headerMatch ? headerMatch[1].trim() : "_intro"` for `/^##\s+(.+)/m`. -/
def sectionTitle (sec : Str) : Str :=
  match findHeaderCapture 2 sec with
  | some cap => jsTrim cap
  | none => str "_intro"

/-- `subMatch ? sectionName + " > " + subMatch[1].trim() : sectionName`. -/
def subTitle (sectionName : Str) (subsec : Str) : Str :=
  match findHeaderCapture 3 subsec with
  | some cap => sectionName ++ str " > " ++ jsTrim cap
  | none => sectionName

/-- The `" (part N)"` breadcrumb path of a paragraph-accumulator part. -/
def partPath (subName : Str) (k : Nat) : Str :=
  subName ++ str " (part " ++ (Nat.repr k).data ++ str ")"

/-- The `::partN` filename of a paragraph-accumulator part. -/
def partFile (fn subName : Str) (k : Nat) : Str :=
  fn ++ str "::" ++ subName ++ str "::part" ++ (Nat.repr k).data

/-- The greedy paragraph accumulator of `chunkLargeFile` (lines 182-219):
paragraphs are appended to `acc` until appending the next one would exceed
`CHUNK_CHAR_LIMIT`, at which point the accumulator is flushed as `::partN`;
the trailing accumulator is flushed when its trimmed length is at least 10
(as a `::partN` if parts were flushed before, else as the bare subsection). -/
def paraLoop (docTitle fn subName : Str) : List Str → Str → Nat → List Chunk
  | [], acc, k =>
    if 10 ≤ (jsTrim acc).length then
      if 0 < k then
        [mkChunk (partFile fn subName (k + 1))
          (breadcrumb docTitle (partPath subName (k + 1))) (jsTrim acc)]
      else
        [mkChunk (fn ++ str "::" ++ subName) (breadcrumb docTitle subName) (jsTrim acc)]
    else []
  | para :: rest, acc, k =>
    if CHUNK_CHAR_LIMIT < acc.length + para.length + 2 ∧ 0 < acc.length then
      mkChunk (partFile fn subName (k + 1))
          (breadcrumb docTitle (partPath subName (k + 1))) (jsTrim acc)
        :: paraLoop docTitle fn subName rest para (k + 1)
    else
      paraLoop docTitle fn subName rest
        (if acc.isEmpty then para else acc ++ str "\n\n" ++ para) k

/-- Body of the `for (const subsection of subsections)` loop
(the source's `subName` local is inlined as `subTitle sectionName subsec`). -/
def processSubsection (docTitle fn sectionName : Str) (subsec : Str) : List Chunk :=
  if (jsTrim subsec).length < 10 then []
  else if subsec.length ≤ CHUNK_CHAR_LIMIT then
    [mkChunk (fn ++ str "::" ++ subTitle sectionName subsec)
      (breadcrumb docTitle (subTitle sectionName subsec)) subsec]
  else
    paraLoop docTitle fn (subTitle sectionName subsec) (splitParas subsec) [] 0

/-- Body of the `for (const section of sections)` loop
(the source's `sectionName` local is inlined as `sectionTitle sec`). -/
def processSection (docTitle fn : Str) (sec : Str) : List Chunk :=
  if (jsTrim sec).length < 10 then []
  else if sec.length ≤ CHUNK_CHAR_LIMIT then
    [mkChunk (fn ++ str "::" ++ sectionTitle sec)
      (breadcrumb docTitle (sectionTitle sec)) sec]
  else
    (splitSubsections sec).flatMap (processSubsection docTitle fn (sectionTitle sec))

/-- `chunkLargeFile(content, filename)` from scripts/ingest.ts. -/
def chunkLargeFile (content fn : Str) : List Chunk :=
  (splitSections content).flatMap (processSection (extractDocTitle content) fn)

-- --- Paragraph / blank-line structure ---

/-- `s` contains two adjacent line feeds (a blank-line paragraph separator
of the `/\n\n+/` split). -/
def hasNN : Str → Bool
  | c :: d :: rest => (c == '\n' && d == '\n') || hasNN (d :: rest)
  | _ => false

theorem hasNN_cons_false {a : Char} {xs : Str} (h : hasNN (a :: xs) = false) :
    hasNN xs = false := by
  cases xs with
  | nil => rfl
  | cons b t =>
    simp only [hasNN, Bool.or_eq_false_iff] at h
    exact h.2

theorem hasNN_cons_of {a : Char} {xs : Str} (h : hasNN xs = true) :
    hasNN (a :: xs) = true := by
  cases xs with
  | nil => simp [hasNN] at h
  | cons b t => simp [hasNN, h]

theorem hasNN_append_left {l s : Str} (h : hasNN l = true) :
    hasNN (l ++ s) = true := by
  induction l with
  | nil => simp [hasNN] at h
  | cons a t ih =>
    cases t with
    | nil => simp [hasNN] at h
    | cons b u =>
      simp only [hasNN, Bool.or_eq_true] at h
      rcases h with h | h
      · simp [List.cons_append, hasNN, h]
      · have := ih h
        rw [List.cons_append]
        exact hasNN_cons_of this

theorem hasNN_append_right {p s : Str} (h : hasNN s = true) :
    hasNN (p ++ s) = true := by
  induction p with
  | nil => simpa
  | cons a t ih => exact hasNN_cons_of ih

theorem hasNN_infix_mono {l₁ l₂ : Str} (hinf : l₁ <:+: l₂)
    (h : hasNN l₂ = false) : hasNN l₁ = false := by
  rcases hinf with ⟨p, s, rfl⟩
  by_contra hne
  have h1 : hasNN l₁ = true := by
    cases hh : hasNN l₁ with
    | false => exact absurd hh hne
    | true => rfl
  have h2 := @hasNN_append_right p _ (@hasNN_append_left _ s h1)
  rw [← List.append_assoc] at h2
  rw [h] at h2
  exact Bool.false_ne_true h2

theorem hasNN_pair_middle {l t : Str} {c d : Char}
    (h : hasNN (l ++ c :: d :: t) = false) : ¬(c = '\n' ∧ d = '\n') := by
  induction l with
  | nil =>
    simp only [List.nil_append, hasNN, Bool.or_eq_false_iff] at h
    rintro ⟨rfl, rfl⟩
    simp at h
  | cons a u ih => exact ih (hasNN_cons_false h)

theorem hasNN_append_single {l : Str} {c : Char}
    (h1 : hasNN l = false)
    (h2 : ∀ d, l.getLast? = some d → ¬(d = '\n' ∧ c = '\n')) :
    hasNN (l ++ [c]) = false := by
  induction l with
  | nil => rfl
  | cons a t ih =>
    cases t with
    | nil =>
      have hthis := h2 a rfl
      show ((a == '\n' && c == '\n') || hasNN [c]) = false
      have hac : (a == '\n' && c == '\n') = false := by
        by_cases ha : a = '\n'
        · by_cases hc : c = '\n'
          · exact absurd ⟨ha, hc⟩ hthis
          · simp [hc]
        · simp [ha]
      rw [hac]
      rfl
    | cons b u =>
      have hp : (a == '\n' && b == '\n') = false := by
        simp only [hasNN, Bool.or_eq_false_iff] at h1
        exact h1.1
      have ht : hasNN ((b :: u) ++ [c]) = false :=
        ih (hasNN_cons_false h1) (fun d hd => h2 d (by simpa using hd))
      simp only [List.cons_append] at ht ⊢
      simp only [hasNN, Bool.or_eq_false_iff]
      exact ⟨hp, ht⟩

theorem jsTrim_within (s : Str) : jsTrim s <:+: s :=
  (List.rdropWhile_prefix _ _).isInfix.trans (List.dropWhile_suffix _).isInfix

theorem jsTrim_length_le (s : Str) : (jsTrim s).length ≤ s.length :=
  (jsTrim_within s).length_le

theorem hasNN_jsTrim {s : Str} (h : hasNN s = false) : hasNN (jsTrim s) = false :=
  hasNN_infix_mono (jsTrim_within s) h

/-- Every piece of the `/\n\n+/` split is free of adjacent line feeds. -/
theorem splitParasGo_noNN :
    ∀ (s acc : Str) (skipping : Bool),
      hasNN acc.reverse = false →
      (skipping = true → acc = []) →
      (∀ c, acc.head? = some '\n' → s.head? = some c → c ≠ '\n') →
      ∀ p ∈ splitParasGo s acc skipping, hasNN p = false := by
  intro s
  induction s with
  | nil =>
    intro acc skipping h1 _ _ p hp
    simp only [splitParasGo, List.mem_singleton] at hp
    exact hp ▸ h1
  | cons c rest ih =>
    intro acc skipping h1 h2 h3 p hp
    rw [splitParasGo] at hp
    split_ifs at hp with hA hB
    · have hacc : acc = [] := h2 hA.1
      subst hacc
      exact ih [] true rfl (fun _ => rfl) (by simp) p hp
    · rcases List.mem_cons.mp hp with rfl | hp
      · exact h1
      · exact ih [] true rfl (fun _ => rfl) (by simp) p hp
    · refine ih (c :: acc) false ?_ (by simp) ?_ p hp
      · rw [List.reverse_cons]
        refine hasNN_append_single h1 (fun d hd => ?_)
        rintro ⟨rfl, rfl⟩
        rw [List.getLast?_reverse] at hd
        exact (h3 '\n' hd (by rfl)) rfl
      · intro e he hre
        rw [List.head?_cons, Option.some_inj] at he
        subst he
        intro hne
        subst hne
        exact hB ⟨rfl, by rw [hre]⟩

theorem splitParas_noNN (s : Str) : ∀ p ∈ splitParas s, hasNN p = false :=
  splitParasGo_noNN s [] false rfl (fun _ => rfl) (by simp)

theorem splitParasGo_of_noNN :
    ∀ (s acc : Str), hasNN (acc.reverse ++ s) = false →
      splitParasGo s acc false = [acc.reverse ++ s] := by
  intro s
  induction s with
  | nil => intro acc _; simp [splitParasGo]
  | cons c rest ih =>
    intro acc h
    rw [splitParasGo]
    rw [if_neg (by simp)]
    have hnot : ¬(c = '\n' ∧ rest.head? = some '\n') := by
      rintro ⟨rfl, hh⟩
      cases rest with
      | nil => simp at hh
      | cons d t =>
        rw [List.head?_cons, Option.some_inj] at hh
        exact hasNN_pair_middle h ⟨rfl, hh⟩
    rw [if_neg hnot]
    have := ih (c :: acc) (by simpa [List.append_assoc] using h)
    rw [this]
    simp [List.append_assoc]

/-- A string without adjacent line feeds is a single paragraph: the
`/\n\n+/` split returns it unchanged. -/
theorem splitParas_of_noNN {s : Str} (h : hasNN s = false) :
    splitParas s = [s] := by
  simpa using splitParasGo_of_noNN s [] (by simpa using h)

-- --- The per-chunk size bound (claim C1) ---

/-- The shape every emitted chunk content actually has: an (optional)
breadcrumb line followed by a body that either fits the per-chunk budget or
is a single blank-line-delimited paragraph (irreducible unit). -/
def chunkOk (docTitle : Str) (ch : Chunk) : Prop :=
  ∃ pre body, ch.content = pre ++ body ∧
    (pre = [] ∨ ∃ path, pre = str "> " ++ docTitle ++ str " > " ++ path ++ str "\n\n") ∧
    (body.length ≤ CHUNK_CHAR_LIMIT ∨
      (CHUNK_CHAR_LIMIT < body.length ∧ splitParas body = [body]))

theorem breadcrumb_shape (docTitle path : Str) :
    breadcrumb docTitle path = [] ∨
      ∃ p, breadcrumb docTitle path =
        str "> " ++ docTitle ++ str " > " ++ p ++ str "\n\n" := by
  rw [breadcrumb]
  split_ifs with h
  · exact Or.inl rfl
  · exact Or.inr ⟨path, rfl⟩

theorem mkChunk_ok {docTitle name path body : Str}
    (hb : body.length ≤ CHUNK_CHAR_LIMIT ∨
      (CHUNK_CHAR_LIMIT < body.length ∧ splitParas body = [body])) :
    chunkOk docTitle (mkChunk name (breadcrumb docTitle path) body) :=
  ⟨breadcrumb docTitle path, body, rfl, breadcrumb_shape docTitle path, hb⟩

/-- Body hypothesis for a flushed accumulator: trimming it keeps the
invariant that it fits the budget or is a single paragraph. -/
theorem trim_body_ok {acc : Str}
    (h : acc.length ≤ CHUNK_CHAR_LIMIT ∨ hasNN acc = false) :
    (jsTrim acc).length ≤ CHUNK_CHAR_LIMIT ∨
      (CHUNK_CHAR_LIMIT < (jsTrim acc).length ∧
        splitParas (jsTrim acc) = [jsTrim acc]) := by
  by_cases hl : (jsTrim acc).length ≤ CHUNK_CHAR_LIMIT
  · exact Or.inl hl
  · refine Or.inr ⟨Nat.lt_of_not_le hl, ?_⟩
    rcases h with h | h
    · exact absurd (Nat.le_trans (jsTrim_length_le acc) h) hl
    · exact splitParas_of_noNN (hasNN_jsTrim h)

/-- Every chunk emitted by the paragraph accumulator satisfies the size
bound (up to its breadcrumb), provided every paragraph is blank-line free
and the accumulator satisfies the loop invariant. -/
theorem paraLoop_ok (docTitle fn subName : Str) :
    ∀ (paras : List Str) (acc : Str) (k : Nat),
      (∀ p ∈ paras, hasNN p = false) →
      (acc.length ≤ CHUNK_CHAR_LIMIT ∨ hasNN acc = false) →
      ∀ ch ∈ paraLoop docTitle fn subName paras acc k, chunkOk docTitle ch := by
  intro paras
  induction paras with
  | nil =>
    intro acc k _ hacc ch hch
    rw [paraLoop] at hch
    split_ifs at hch with h1 h2 <;>
      simp only [List.mem_singleton, List.not_mem_nil] at hch
    · exact hch ▸ mkChunk_ok (trim_body_ok hacc)
    · exact hch ▸ mkChunk_ok (trim_body_ok hacc)
  | cons para rest ih =>
    intro acc k hpar hacc ch hch
    rw [paraLoop] at hch
    split_ifs at hch with h1 hemp
    · rcases List.mem_cons.mp hch with rfl | hch
      · exact mkChunk_ok (trim_body_ok hacc)
      · exact ih para (k + 1) (fun p hp => hpar p (List.mem_cons_of_mem _ hp))
          (Or.inr (hpar para (List.mem_cons_self _ _))) ch hch
    · exact ih para k (fun p hp => hpar p (List.mem_cons_of_mem _ hp))
        (Or.inr (hpar para (List.mem_cons_self _ _))) ch hch
    · refine ih _ k (fun p hp => hpar p (List.mem_cons_of_mem _ hp)) (Or.inl ?_) ch hch
      have hlen : 0 < acc.length := by
        cases acc with
        | nil => simp [List.isEmpty] at hemp
        | cons a t => simp
      have hle : acc.length + para.length + 2 ≤ CHUNK_CHAR_LIMIT := by
        by_contra hgt
        exact h1 ⟨Nat.lt_of_not_le hgt, hlen⟩
      have h2 : (str "\n\n").length = 2 := rfl
      simp only [List.length_append, h2]
      omega

theorem processSubsection_ok (docTitle fn sectionName subsec : Str) :
    ∀ ch ∈ processSubsection docTitle fn sectionName subsec, chunkOk docTitle ch := by
  intro ch hch
  rw [processSubsection] at hch
  split_ifs at hch with h1 h2
  · exact absurd hch (List.not_mem_nil _)
  · rw [List.mem_singleton] at hch
    exact hch ▸ mkChunk_ok (Or.inl h2)
  · exact paraLoop_ok docTitle fn _ (splitParas subsec) [] 0
      (splitParas_noNN subsec) (Or.inl (by simp [CHUNK_CHAR_LIMIT])) ch hch

theorem processSection_ok (docTitle fn sec : Str) :
    ∀ ch ∈ processSection docTitle fn sec, chunkOk docTitle ch := by
  intro ch hch
  rw [processSection] at hch
  split_ifs at hch with h1 h2
  · exact absurd hch (List.not_mem_nil _)
  · rw [List.mem_singleton] at hch
    exact hch ▸ mkChunk_ok (Or.inl h2)
  · rcases List.mem_flatMap.mp hch with ⟨subsec, _, hmem⟩
    exact processSubsection_ok docTitle fn _ subsec ch hmem

/-- Master bound: every chunk emitted by `chunkLargeFile` is a breadcrumb
followed by a body that fits the budget or is a single oversized paragraph. -/
theorem chunkLargeFile_ok (content fn : Str) :
    ∀ ch ∈ chunkLargeFile content fn, chunkOk (extractDocTitle content) ch := by
  intro ch hch
  rw [chunkLargeFile] at hch
  rcases List.mem_flatMap.mp hch with ⟨sec, _, hmem⟩
  exact processSection_ok (extractDocTitle content) fn sec ch hmem

-- --- Chunk filename structure (claim C7) ---

theorem paraLoop_names (docTitle fn subName : Str) :
    ∀ (paras : List Str) (acc : Str) (k : Nat),
      ∀ ch ∈ paraLoop docTitle fn subName paras acc k,
        ch.filename = fn ++ str "::" ++ subName ∨
        ∃ j, ch.filename = partFile fn subName j := by
  intro paras
  induction paras with
  | nil =>
    intro acc k ch hch
    rw [paraLoop] at hch
    split_ifs at hch with h1 h2 <;>
      simp only [List.mem_singleton, List.not_mem_nil] at hch
    · exact Or.inr ⟨k + 1, hch ▸ rfl⟩
    · exact Or.inl (hch ▸ rfl)
  | cons para rest ih =>
    intro acc k ch hch
    rw [paraLoop] at hch
    split_ifs at hch with h1 hemp
    · rcases List.mem_cons.mp hch with rfl | hch
      · exact Or.inr ⟨k + 1, rfl⟩
      · exact ih para (k + 1) ch hch
    · exact ih para k ch hch
    · exact ih _ k ch hch

theorem processSubsection_names (docTitle fn sectionName subsec : Str) :
    ∀ ch ∈ processSubsection docTitle fn sectionName subsec,
      ch.filename = fn ++ str "::" ++ subTitle sectionName subsec ∨
      ∃ j, ch.filename = partFile fn (subTitle sectionName subsec) j := by
  intro ch hch
  rw [processSubsection] at hch
  split_ifs at hch with h1 h2
  · exact absurd hch (List.not_mem_nil _)
  · rw [List.mem_singleton] at hch
    exact Or.inl (hch ▸ rfl)
  · exact paraLoop_names docTitle fn _ (splitParas subsec) [] 0 ch hch

theorem processSection_names (docTitle fn sec : Str) :
    ∀ ch ∈ processSection docTitle fn sec,
      ∃ rest, ch.filename = fn ++ str "::" ++ rest := by
  intro ch hch
  rw [processSection] at hch
  split_ifs at hch with h1 h2
  · exact absurd hch (List.not_mem_nil _)
  · rw [List.mem_singleton] at hch
    exact ⟨sectionTitle sec, hch ▸ rfl⟩
  · rcases List.mem_flatMap.mp hch with ⟨subsec, _, hmem⟩
    rcases processSubsection_names docTitle fn _ subsec ch hmem with h | ⟨j, h⟩
    · exact ⟨subTitle (sectionTitle sec) subsec, h⟩
    · refine ⟨subTitle (sectionTitle sec) subsec ++ str "::part" ++ (Nat.repr j).data, ?_⟩
      rw [h, partFile]
      simp [List.append_assoc]

/-- Every chunk's filename begins with the parent path followed by `::`. -/
theorem chunkLargeFile_names (content fn : Str) :
    ∀ ch ∈ chunkLargeFile content fn,
      ∃ rest, ch.filename = fn ++ str "::" ++ rest := by
  intro ch hch
  rw [chunkLargeFile] at hch
  rcases List.mem_flatMap.mp hch with ⟨sec, _, hmem⟩
  exact processSection_names (extractDocTitle content) fn sec ch hmem

-- --- Symbolic evaluation lemmas (for concrete large documents) ---

theorem splitMarker_cons_noterm {m : Str} {c : Char} {rest acc : Str}
    (h : isLineTerm c = false) :
    splitMarker m (c :: rest) acc = splitMarker m rest (c :: acc) := by
  rw [splitMarker, if_neg]
  rintro ⟨h1, _⟩
  rw [h] at h1
  exact Bool.false_ne_true h1

theorem splitMarker_cons_nomark {m : Str} {c : Char} {rest acc : Str}
    (h : m.isPrefixOf rest = false) :
    splitMarker m (c :: rest) acc = splitMarker m rest (c :: acc) := by
  rw [splitMarker, if_neg]
  rintro ⟨_, h2⟩
  rw [h] at h2
  exact Bool.false_ne_true h2

theorem splitMarker_cons_cut {m : Str} {c : Char} {rest acc : Str}
    (h1 : isLineTerm c = true) (h2 : m.isPrefixOf rest = true) :
    splitMarker m (c :: rest) acc = (c :: acc).reverse :: splitMarker m rest [] := by
  rw [splitMarker, if_pos ⟨h1, h2⟩]

theorem splitMarker_nil (m acc : Str) : splitMarker m [] acc = [acc.reverse] := rfl

theorem splitMarker_replicate {m : Str} {c : Char} {rest acc : Str} (k : Nat)
    (h : isLineTerm c = false) :
    splitMarker m (List.replicate k c ++ rest) acc
      = splitMarker m rest (List.replicate k c ++ acc) := by
  induction k generalizing acc with
  | zero => simp
  | succ n ih =>
    rw [List.replicate_succ, List.cons_append, splitMarker_cons_noterm h, ih]
    congr 1
    rw [List.append_cons, ← List.replicate_succ', List.replicate_succ, List.cons_append]

theorem findHC_cons_false {n : Nat} {c : Char} {rest : Str} :
    findHC n (c :: rest) false = findHC n rest (isLineTerm c) := by
  rw [findHC]
  simp

theorem findHC_cons_true_none {n : Nat} {c : Char} {rest : Str}
    (h : matchHeaderAt n (c :: rest) = none) :
    findHC n (c :: rest) true = findHC n rest (isLineTerm c) := by
  rw [findHC]
  simp [h]

theorem findHC_cons_true_some {n : Nat} {c : Char} {rest cap : Str}
    (h : matchHeaderAt n (c :: rest) = some cap) :
    findHC n (c :: rest) true = some cap := by
  rw [findHC]
  simp [h]

theorem matchHeaderAt_not_hash {n : Nat} {c : Char} {rest : Str}
    (hn : 0 < n) (hc : (c == '#') = false) :
    matchHeaderAt n (c :: rest) = none := by
  rw [matchHeaderAt, if_neg]
  intro hp
  cases n with
  | zero => omega
  | succ m =>
    rw [List.replicate_succ] at hp
    simp only [List.isPrefixOf, Bool.and_eq_true, beq_iff_eq] at hp
    rw [beq_eq_false_iff_ne] at hc
    exact hc hp.1.symm

theorem findHC_skip_one {n : Nat} {c : Char} {rest : Str} {b : Bool}
    (hn : 0 < n) (hc : (c == '#') = false) (ht : isLineTerm c = false) :
    findHC n (c :: rest) b = findHC n rest false := by
  cases b
  · rw [findHC_cons_false, ht]
  · rw [findHC_cons_true_none (matchHeaderAt_not_hash hn hc), ht]

theorem findHC_replicate {n : Nat} {c : Char} {rest : Str} {b : Bool} (k : Nat)
    (hn : 0 < n) (hc : (c == '#') = false) (ht : isLineTerm c = false) :
    findHC n (List.replicate (k + 1) c ++ rest) b = findHC n rest false := by
  induction k generalizing b with
  | zero => exact findHC_skip_one hn hc ht
  | succ j ih =>
    rw [List.replicate_succ, List.cons_append, findHC_skip_one hn hc ht]
    exact ih

theorem findHC_nil (n : Nat) (b : Bool) : findHC n [] b = none := rfl

theorem spGo_cons_noNL {c : Char} {rest acc : Str} {b : Bool}
    (h : (c == '\n') = false) :
    splitParasGo (c :: rest) acc b = splitParasGo rest (c :: acc) false := by
  rw [beq_eq_false_iff_ne] at h
  rw [splitParasGo, if_neg (by rintro ⟨_, h2⟩; exact h h2),
    if_neg (by rintro ⟨h1, _⟩; exact h h1)]

theorem spGo_cons_cut {rest acc : Str}
    (h2 : rest.head? = some '\n') :
    splitParasGo ('\n' :: rest) acc false = acc.reverse :: splitParasGo rest [] true := by
  rw [splitParasGo, if_neg (by rintro ⟨h1, _⟩; exact Bool.false_ne_true h1),
    if_pos ⟨rfl, h2⟩]

theorem spGo_cons_oneNL {rest acc : Str}
    (h2 : rest.head? ≠ some '\n') :
    splitParasGo ('\n' :: rest) acc false = splitParasGo rest ('\n' :: acc) false := by
  rw [splitParasGo, if_neg (by rintro ⟨h1, _⟩; exact Bool.false_ne_true h1),
    if_neg (by rintro ⟨_, hh⟩; exact h2 hh)]

theorem spGo_cons_skipNL {rest acc : Str} :
    splitParasGo ('\n' :: rest) acc true = splitParasGo rest acc true := by
  rw [splitParasGo, if_pos ⟨rfl, rfl⟩]

theorem spGo_exit_skip {c : Char} {rest acc : Str}
    (h : (c == '\n') = false) :
    splitParasGo (c :: rest) acc true = splitParasGo rest (c :: acc) false := by
  rw [beq_eq_false_iff_ne] at h
  rw [splitParasGo, if_neg (by rintro ⟨_, h2⟩; exact h h2),
    if_neg (by rintro ⟨h1, _⟩; exact h h1)]

theorem spGo_replicate {c : Char} {rest acc : Str} (k : Nat)
    (h : (c == '\n') = false) :
    splitParasGo (List.replicate k c ++ rest) acc false
      = splitParasGo rest (List.replicate k c ++ acc) false := by
  induction k generalizing acc with
  | zero => simp
  | succ n ih =>
    rw [List.replicate_succ, List.cons_append, spGo_cons_noNL h, ih]
    congr 1
    rw [List.append_cons, ← List.replicate_succ', List.replicate_succ, List.cons_append]

theorem spGo_nil (acc : Str) (b : Bool) : splitParasGo [] acc b = [acc.reverse] := rfl

theorem jsTrim_eq_self {s : Str}
    (h1 : ∀ c, s.head? = some c → isJsWS c = false)
    (h2 : ∀ c, s.getLast? = some c → isJsWS c = false) :
    jsTrim s = s := by
  rw [jsTrim]
  have hd : s.dropWhile isJsWS = s := by
    cases s with
    | nil => rfl
    | cons a t =>
      rw [List.dropWhile_cons, if_neg]
      rw [h1 a rfl]
      exact Bool.false_ne_true
  rw [hd]
  rw [List.rdropWhile_eq_self_iff]
  intro hl hlast
  have hsome : s.getLast? = some (s.getLast hl) := List.getLast?_eq_getLast s hl
  rw [h2 (s.getLast hl) hsome] at hlast
  exact Bool.false_ne_true hlast

theorem getLast?_append_replicate {l : Str} {c : Char} {k : Nat} (hk : 0 < k) :
    (l ++ List.replicate k c).getLast? = some c := by
  rw [List.getLast?_append, List.getLast?_replicate, if_neg (by omega)]
  rfl

theorem rdropWhile_eq_self_of_getLast {p : Char → Bool} {l : Str} {c : Char}
    (h : l.getLast? = some c) (hc : p c = false) : l.rdropWhile p = l := by
  rw [List.rdropWhile_eq_self_iff]
  intro hl hpl
  rw [List.getLast?_eq_getLast l hl, Option.some_inj] at h
  rw [h, hc] at hpl
  exact Bool.false_ne_true hpl

theorem splitMarker_replicate_nil {m : Str} {c : Char} {acc : Str} (k : Nat)
    (h : isLineTerm c = false) :
    splitMarker m (List.replicate k c) acc = [(List.replicate k c ++ acc).reverse] := by
  have h2 := @splitMarker_replicate m _ [] acc k h
  rw [List.append_nil] at h2
  rw [h2, splitMarker_nil]

theorem spGo_replicate_nil {c : Char} {acc : Str} (k : Nat)
    (h : (c == '\n') = false) :
    splitParasGo (List.replicate k c) acc false = [(List.replicate k c ++ acc).reverse] := by
  have h2 := @spGo_replicate _ [] acc k h
  rw [List.append_nil] at h2
  rw [h2, spGo_nil]

theorem findHC_skipN {n : Nat} {c : Char} {rest : Str} {b : Bool}
    (hm : matchHeaderAt n (c :: rest) = none) (ht : isLineTerm c = false) :
    findHC n (c :: rest) b = findHC n rest false := by
  cases b
  · rw [findHC_cons_false, ht]
  · rw [findHC_cons_true_none hm, ht]

theorem findHC_skipT {n : Nat} {c : Char} {rest : Str} {b : Bool}
    (hm : matchHeaderAt n (c :: rest) = none) (ht : isLineTerm c = true) :
    findHC n (c :: rest) b = findHC n rest true := by
  cases b
  · rw [findHC_cons_false, ht]
  · rw [findHC_cons_true_none hm, ht]

theorem findHC_replicate' {n : Nat} {c : Char} {rest : Str} {b : Bool} {k : Nat}
    (hk : 0 < k) (hn : 0 < n) (hc : (c == '#') = false) (ht : isLineTerm c = false) :
    findHC n (List.replicate k c ++ rest) b = findHC n rest false := by
  obtain ⟨j, rfl⟩ : ∃ j, k = j + 1 := ⟨k - 1, by omega⟩
  exact findHC_replicate j hn hc ht

-- --- Concrete documents for the chunker claims ---

/-- A `# T` title line followed by 95000 `a` characters and a blank line:
the oversized leading section shared by the two concrete documents below. -/
def introSec : Str := '#' :: ' ' :: 'T' :: '\n' :: (List.replicate 95000 'a' ++ ['\n', '\n'])

/-- The single paragraph of `introSec` (its content without the blank line). -/
def introPara : Str := '#' :: ' ' :: 'T' :: '\n' :: List.replicate 95000 'a'

/-- The chunk the paragraph accumulator emits for `introSec`. -/
def introChunk : Chunk :=
  mkChunk (str "d::_intro::part1") (str "> T > _intro (part 1)\n\n") introPara

/-- A `## S` section of exactly 10000 characters (a single paragraph). -/
def c1sec : Str := '#' :: '#' :: ' ' :: 'S' :: '\n' :: List.replicate 9995 'a'

/-- A 105006-character document: title `T`, a 95006-character intro
section, and the 10000-character section `c1sec`. -/
def c1doc : Str :=
  '#' :: ' ' :: 'T' :: '\n' :: (List.replicate 95000 'a' ++ ('\n' :: '\n' :: c1sec))

/-- The chunk emitted for `c1sec`: breadcrumb plus the full 10000-character
section, 10009 characters in total. -/
def c1chunk : Chunk := mkChunk (str "d::S") (str "> T > S\n\n") c1sec

/-- A `### U` subsection of 9996 characters. -/
def c7sub : Str := '#' :: '#' :: '#' :: ' ' :: 'U' :: '\n' :: List.replicate 9990 'a'

/-- A `## S` section of 10001 characters containing the `### U` subsection. -/
def c7sec : Str := '#' :: '#' :: ' ' :: 'S' :: '\n' :: c7sub

/-- A 105007-character document: title `T`, the 95006-character intro
section, and the 10001-character section `c7sec`. -/
def c7doc : Str :=
  '#' :: ' ' :: 'T' :: '\n' :: (List.replicate 95000 'a' ++ ('\n' :: '\n' :: c7sec))

/-- The chunk emitted for the `### U` subsection of `c7sec`. -/
def c7chunk : Chunk := mkChunk (str "d::S > U") (str "> T > S > U\n\n") c7sub

theorem introPara_len : introPara.length = 95004 := by
  rw [introPara, List.length_cons, List.length_cons, List.length_cons, List.length_cons,
    List.length_replicate]

theorem introSec_len : introSec.length = 95006 := by
  rw [introSec, List.length_cons, List.length_cons, List.length_cons, List.length_cons,
    List.length_append, List.length_replicate]
  rfl

theorem c1sec_len : c1sec.length = 10000 := by
  rw [c1sec, List.length_cons, List.length_cons, List.length_cons, List.length_cons,
    List.length_cons, List.length_replicate]

theorem c7sub_len : c7sub.length = 9996 := by
  rw [c7sub, List.length_cons, List.length_cons, List.length_cons, List.length_cons,
    List.length_cons, List.length_cons, List.length_replicate]

theorem c7sec_len : c7sec.length = 10001 := by
  rw [c7sec, List.length_cons, List.length_cons, List.length_cons, List.length_cons,
    List.length_cons, c7sub_len]

theorem introPara_getLast : introPara.getLast? = some 'a' := by
  have h : introPara = ['#', ' ', 'T', '\n'] ++ List.replicate 95000 'a' := rfl
  rw [h, getLast?_append_replicate (by omega)]

theorem introPara_trim : jsTrim introPara = introPara := by
  apply jsTrim_eq_self
  · intro d hd
    rw [show introPara.head? = some '#' from rfl, Option.some_inj] at hd
    exact hd ▸ rfl
  · intro d hd
    rw [introPara_getLast, Option.some_inj] at hd
    exact hd ▸ rfl

theorem introSec_trim : jsTrim introSec = introPara := by
  rw [jsTrim]
  have hd : introSec.dropWhile isJsWS = introSec := by
    rw [introSec, List.dropWhile_cons, if_neg (by decide)]
  rw [hd]
  have h1 : introSec = (introPara ++ ['\n']) ++ ['\n'] := by
    rw [introSec, introPara, List.append_assoc, List.cons_append, List.cons_append,
      List.cons_append, List.cons_append, List.singleton_append]
  rw [h1, List.rdropWhile_concat_pos isJsWS (introPara ++ ['\n']) '\n' (by decide),
    List.rdropWhile_concat_pos isJsWS introPara '\n' (by decide)]
  exact rdropWhile_eq_self_of_getLast introPara_getLast rfl

theorem c1sec_getLast : c1sec.getLast? = some 'a' := by
  have h : c1sec = ['#', '#', ' ', 'S', '\n'] ++ List.replicate 9995 'a' := rfl
  rw [h, getLast?_append_replicate (by omega)]

theorem c1sec_trim : jsTrim c1sec = c1sec := by
  apply jsTrim_eq_self
  · intro d hd
    rw [show c1sec.head? = some '#' from rfl, Option.some_inj] at hd
    exact hd ▸ rfl
  · intro d hd
    rw [c1sec_getLast, Option.some_inj] at hd
    exact hd ▸ rfl

theorem c7sec_getLast : c7sec.getLast? = some 'a' := by
  have h : c7sec = ['#', '#', ' ', 'S', '\n', '#', '#', '#', ' ', 'U', '\n']
      ++ List.replicate 9990 'a' := rfl
  rw [h, getLast?_append_replicate (by omega)]

theorem c7sec_trim : jsTrim c7sec = c7sec := by
  apply jsTrim_eq_self
  · intro d hd
    rw [show c7sec.head? = some '#' from rfl, Option.some_inj] at hd
    exact hd ▸ rfl
  · intro d hd
    rw [c7sec_getLast, Option.some_inj] at hd
    exact hd ▸ rfl

theorem c7sub_getLast : c7sub.getLast? = some 'a' := by
  have h : c7sub = ['#', '#', '#', ' ', 'U', '\n'] ++ List.replicate 9990 'a' := rfl
  rw [h, getLast?_append_replicate (by omega)]

theorem c7sub_trim : jsTrim c7sub = c7sub := by
  apply jsTrim_eq_self
  · intro d hd
    rw [show c7sub.head? = some '#' from rfl, Option.some_inj] at hd
    exact hd ▸ rfl
  · intro d hd
    rw [c7sub_getLast, Option.some_inj] at hd
    exact hd ▸ rfl

theorem c1doc_len : c1doc.length = 105006 := by
  rw [c1doc, List.length_cons, List.length_cons, List.length_cons, List.length_cons,
    List.length_append, List.length_replicate, List.length_cons, List.length_cons, c1sec_len]

theorem c7doc_len : c7doc.length = 105007 := by
  rw [c7doc, List.length_cons, List.length_cons, List.length_cons, List.length_cons,
    List.length_append, List.length_replicate, List.length_cons, List.length_cons, c7sec_len]

theorem splitMarker_c1sec : splitMarker (str "## ") c1sec [] = [c1sec] := by
  rw [show c1sec = '#' :: '#' :: ' ' :: 'S' :: '\n' :: List.replicate 9995 'a' from rfl]
  rw [splitMarker_cons_noterm (by decide), splitMarker_cons_noterm (by decide),
    splitMarker_cons_noterm (by decide), splitMarker_cons_noterm (by decide)]
  rw [splitMarker_cons_nomark (by decide)]
  rw [splitMarker_replicate_nil 9995 (by decide)]
  rw [List.reverse_append, List.reverse_replicate,
    show (('\n' :: 'S' :: ' ' :: '#' :: '#' :: ([] : Str)).reverse) = ['#', '#', ' ', 'S', '\n']
      from by decide]
  rfl

theorem splitSections_c1doc : splitSections c1doc = [introSec, c1sec] := by
  unfold splitSections c1doc
  rw [splitMarker_cons_noterm (by decide), splitMarker_cons_noterm (by decide),
    splitMarker_cons_noterm (by decide)]
  rw [splitMarker_cons_nomark (by decide)]
  rw [splitMarker_replicate 95000 (by decide)]
  rw [splitMarker_cons_nomark (by decide)]
  rw [splitMarker_cons_cut (by decide) (by decide)]
  rw [splitMarker_c1sec]
  rw [List.reverse_cons, List.reverse_cons, List.reverse_append, List.reverse_replicate,
    show (('\n' :: 'T' :: ' ' :: '#' :: ([] : Str)).reverse) = ['#', ' ', 'T', '\n'] from by decide]
  rw [List.append_assoc, List.append_assoc, List.singleton_append]
  rw [introSec]
  rfl

theorem splitMarker_c7sub :
    splitMarker (str "## ") c7sub ('\n' :: 'S' :: ' ' :: '#' :: '#' :: []) = [c7sec] := by
  rw [show c7sub = '#' :: '#' :: '#' :: ' ' :: 'U' :: '\n' :: List.replicate 9990 'a' from rfl]
  rw [splitMarker_cons_noterm (by decide), splitMarker_cons_noterm (by decide),
    splitMarker_cons_noterm (by decide), splitMarker_cons_noterm (by decide),
    splitMarker_cons_noterm (by decide)]
  rw [splitMarker_cons_nomark (by decide)]
  rw [splitMarker_replicate_nil 9990 (by decide)]
  rw [List.reverse_append, List.reverse_replicate,
    show (('\n' :: 'U' :: ' ' :: '#' :: '#' :: '#' :: '\n' :: 'S' :: ' ' :: '#' :: '#'
      :: ([] : Str)).reverse) = ['#', '#', ' ', 'S', '\n', '#', '#', '#', ' ', 'U', '\n']
      from by decide]
  rw [c7sec, c7sub]
  rfl

theorem splitMarker_c7sec : splitMarker (str "## ") c7sec [] = [c7sec] := by
  rw [show c7sec = '#' :: '#' :: ' ' :: 'S' :: '\n' :: c7sub from rfl]
  rw [splitMarker_cons_noterm (by decide), splitMarker_cons_noterm (by decide),
    splitMarker_cons_noterm (by decide), splitMarker_cons_noterm (by decide)]
  rw [splitMarker_cons_nomark (by decide)]
  exact splitMarker_c7sub

theorem splitSections_c7doc : splitSections c7doc = [introSec, c7sec] := by
  unfold splitSections c7doc
  rw [splitMarker_cons_noterm (by decide), splitMarker_cons_noterm (by decide),
    splitMarker_cons_noterm (by decide)]
  rw [splitMarker_cons_nomark (by decide)]
  rw [splitMarker_replicate 95000 (by decide)]
  rw [splitMarker_cons_nomark (by decide)]
  rw [splitMarker_cons_cut (by decide) (by decide)]
  rw [splitMarker_c7sec]
  rw [List.reverse_cons, List.reverse_cons, List.reverse_append, List.reverse_replicate,
    show (('\n' :: 'T' :: ' ' :: '#' :: ([] : Str)).reverse) = ['#', ' ', 'T', '\n'] from by decide]
  rw [List.append_assoc, List.append_assoc, List.singleton_append]
  rw [introSec]
  rfl

theorem splitSubsections_introSec : splitSubsections introSec = [introSec] := by
  unfold splitSubsections introSec
  rw [splitMarker_cons_noterm (by decide), splitMarker_cons_noterm (by decide),
    splitMarker_cons_noterm (by decide)]
  rw [splitMarker_cons_nomark (by decide)]
  rw [splitMarker_replicate 95000 (by decide)]
  rw [splitMarker_cons_nomark (by decide), splitMarker_cons_nomark (by decide)]
  rw [splitMarker_nil]
  rw [List.reverse_cons, List.reverse_cons, List.reverse_append, List.reverse_replicate,
    show (('\n' :: 'T' :: ' ' :: '#' :: ([] : Str)).reverse) = ['#', ' ', 'T', '\n'] from by decide]
  rw [List.append_assoc, List.append_assoc, List.singleton_append]
  rfl

theorem splitMarker_sub_c7sub : splitMarker (str "### ") c7sub [] = [c7sub] := by
  rw [show c7sub = '#' :: '#' :: '#' :: ' ' :: 'U' :: '\n' :: List.replicate 9990 'a' from rfl]
  rw [splitMarker_cons_noterm (by decide), splitMarker_cons_noterm (by decide),
    splitMarker_cons_noterm (by decide), splitMarker_cons_noterm (by decide),
    splitMarker_cons_noterm (by decide)]
  rw [splitMarker_cons_nomark (by decide)]
  rw [splitMarker_replicate_nil 9990 (by decide)]
  rw [List.reverse_append, List.reverse_replicate,
    show (('\n' :: 'U' :: ' ' :: '#' :: '#' :: '#' :: ([] : Str)).reverse)
      = ['#', '#', '#', ' ', 'U', '\n'] from by decide]
  rfl

theorem splitSubsections_c7sec : splitSubsections c7sec = [str "## S\n", c7sub] := by
  unfold splitSubsections
  rw [show c7sec = '#' :: '#' :: ' ' :: 'S' :: '\n' :: c7sub from rfl]
  rw [splitMarker_cons_noterm (by decide), splitMarker_cons_noterm (by decide),
    splitMarker_cons_noterm (by decide), splitMarker_cons_noterm (by decide)]
  rw [splitMarker_cons_cut (by decide) (by decide)]
  rw [splitMarker_sub_c7sub]
  rw [show (('\n' :: 'S' :: ' ' :: '#' :: '#' :: ([] : Str)).reverse) = str "## S\n"
    from by decide]

theorem sectionTitle_introSec : sectionTitle introSec = str "_intro" := by
  have h : findHeaderCapture 2 introSec = none := by
    unfold findHeaderCapture introSec
    rw [findHC_skipN (by decide) (by decide), findHC_skipN (by decide) (by decide),
      findHC_skipN (by decide) (by decide)]
    rw [findHC_skipT (by decide) (by decide)]
    rw [findHC_replicate' (by decide) (by decide) (by decide) (by decide)]
    rw [findHC_skipT (by decide) (by decide), findHC_skipT (by decide) (by decide)]
    rfl
  unfold sectionTitle
  rw [h]

theorem subTitle_introSec (sn : Str) : subTitle sn introSec = sn := by
  have h : findHeaderCapture 3 introSec = none := by
    unfold findHeaderCapture introSec
    rw [findHC_skipN (by decide) (by decide), findHC_skipN (by decide) (by decide),
      findHC_skipN (by decide) (by decide)]
    rw [findHC_skipT (by decide) (by decide)]
    rw [findHC_replicate' (by decide) (by decide) (by decide) (by decide)]
    rw [findHC_skipT (by decide) (by decide), findHC_skipT (by decide) (by decide)]
    rfl
  unfold subTitle
  rw [h]

theorem splitParas_introSec : splitParas introSec = [introPara, []] := by
  unfold splitParas introSec
  rw [spGo_cons_noNL (by decide), spGo_cons_noNL (by decide), spGo_cons_noNL (by decide)]
  rw [spGo_cons_oneNL (by decide)]
  rw [spGo_replicate 95000 (by decide)]
  rw [spGo_cons_cut (by decide)]
  rw [spGo_cons_skipNL, spGo_nil]
  rw [List.reverse_append, List.reverse_replicate,
    show (('\n' :: 'T' :: ' ' :: '#' :: ([] : Str)).reverse) = ['#', ' ', 'T', '\n'] from by decide]
  rw [introPara]
  rfl

theorem paraLoop_intro :
    paraLoop (str "T") (str "d") (str "_intro") [introPara, []] [] 0 = [introChunk] := by
  rw [paraLoop]
  rw [if_neg (by rintro ⟨_, h⟩; exact absurd h (by decide))]
  show paraLoop (str "T") (str "d") (str "_intro") [[]] introPara 0 = [introChunk]
  rw [paraLoop]
  rw [if_pos (by rw [introPara_len]; exact ⟨by decide, by decide⟩)]
  rw [introPara_trim]
  rw [paraLoop]
  rw [if_neg (by decide)]
  rfl

theorem processSubsection_introSec :
    processSubsection (str "T") (str "d") (str "_intro") introSec = [introChunk] := by
  unfold processSubsection
  rw [introSec_trim, introPara_len, introSec_len]
  rw [if_neg (by decide), if_neg (by decide)]
  rw [subTitle_introSec, splitParas_introSec]
  exact paraLoop_intro

theorem processSection_introSec :
    processSection (str "T") (str "d") introSec = [introChunk] := by
  unfold processSection
  rw [introSec_trim, introPara_len, introSec_len]
  rw [if_neg (by decide), if_neg (by decide)]
  rw [sectionTitle_introSec, splitSubsections_introSec]
  rw [List.flatMap_cons, List.flatMap_nil, processSubsection_introSec, List.append_nil]

theorem processSection_c1sec : processSection (str "T") (str "d") c1sec = [c1chunk] := by
  unfold processSection
  rw [c1sec_trim, c1sec_len]
  rw [if_neg (by decide), if_pos (by decide)]
  rw [show sectionTitle c1sec = str "S" from by decide]
  rfl

theorem chunkLargeFile_c1doc :
    chunkLargeFile c1doc (str "d") = [introChunk, c1chunk] := by
  unfold chunkLargeFile
  rw [show extractDocTitle c1doc = str "T" from by decide]
  rw [splitSections_c1doc]
  rw [List.flatMap_cons, List.flatMap_cons, List.flatMap_nil]
  rw [processSection_introSec, processSection_c1sec]
  rfl

theorem processSubsection_c7sub :
    processSubsection (str "T") (str "d") (str "S") c7sub = [c7chunk] := by
  unfold processSubsection
  rw [c7sub_trim, c7sub_len]
  rw [if_neg (by decide), if_pos (by decide)]
  rw [show subTitle (str "S") c7sub = str "S > U" from by decide]
  rfl

theorem processSection_c7sec : processSection (str "T") (str "d") c7sec = [c7chunk] := by
  unfold processSection
  rw [c7sec_trim, c7sec_len]
  rw [if_neg (by decide), if_neg (by decide)]
  rw [show sectionTitle c7sec = str "S" from by decide]
  rw [splitSubsections_c7sec]
  rw [List.flatMap_cons, List.flatMap_cons, List.flatMap_nil]
  rw [show processSubsection (str "T") (str "d") (str "S") (str "## S\n") = [] from by decide]
  rw [processSubsection_c7sub]
  rfl

theorem chunkLargeFile_c7doc :
    chunkLargeFile c7doc (str "d") = [introChunk, c7chunk] := by
  unfold chunkLargeFile
  rw [show extractDocTitle c7doc = str "T" from by decide]
  rw [splitSections_c7doc]
  rw [List.flatMap_cons, List.flatMap_cons, List.flatMap_nil]
  rw [processSection_introSec, processSection_c7sec]
  rfl

theorem c1chunk_content_len : c1chunk.content.length = 10009 := by
  show (str "> T > S\n\n" ++ c1sec).length = 10009
  rw [List.length_append, c1sec_len]
  rfl

theorem splitParas_c1content : splitParas c1chunk.content = [str "> T > S", c1sec] := by
  unfold splitParas
  rw [show c1chunk.content
    = '>' :: ' ' :: 'T' :: ' ' :: '>' :: ' ' :: 'S' :: '\n' :: '\n' :: c1sec from rfl]
  rw [spGo_cons_noNL (by decide), spGo_cons_noNL (by decide), spGo_cons_noNL (by decide),
    spGo_cons_noNL (by decide), spGo_cons_noNL (by decide), spGo_cons_noNL (by decide),
    spGo_cons_noNL (by decide)]
  rw [spGo_cons_cut (by decide)]
  rw [spGo_cons_skipNL]
  rw [show c1sec = '#' :: '#' :: ' ' :: 'S' :: '\n' :: List.replicate 9995 'a' from rfl]
  rw [spGo_exit_skip (by decide)]
  rw [spGo_cons_noNL (by decide), spGo_cons_noNL (by decide), spGo_cons_noNL (by decide)]
  rw [spGo_cons_oneNL (by decide)]
  rw [spGo_replicate_nil 9995 (by decide)]
  rw [List.reverse_append, List.reverse_replicate,
    show (('S' :: ' ' :: '>' :: ' ' :: 'T' :: ' ' :: '>' :: ([] : Str)).reverse) = str "> T > S"
      from by decide,
    show (('\n' :: 'S' :: ' ' :: '#' :: '#' :: ([] : Str)).reverse) = ['#', '#', ' ', 'S', '\n']
      from by decide]
  rfl

-- --- Claim C1 ---

/-- The literal reading of claim C1: every emitted chunk's content (breadcrumb
included) fits the 10000-character budget, except when the chunk contains a
single blank-line-delimited paragraph that alone exceeds the budget. -/
def claimC1 (content fn : Str) : Prop :=
  ∀ ch ∈ chunkLargeFile content fn,
    ch.content.length ≤ CHUNK_CHAR_LIMIT ∨
    ∃ para ∈ splitParas ch.content, CHUNK_CHAR_LIMIT < para.length

/-- Claim C1 is false as stated: `c1doc` is a 105006-character document (above
the 100000-character chunking threshold) whose `## S` section is exactly 10000
characters; the emitted chunk is the 9-character breadcrumb `> T > S` plus the
section, 10009 characters, yet none of its paragraphs exceeds the budget. -/
theorem C1_counterexample : LARGE_FILE_THRESHOLD < c1doc.length ∧ ¬ claimC1 c1doc (str "d") := by
  constructor
  · rw [c1doc_len]
    decide
  · intro h
    have hm : c1chunk ∈ chunkLargeFile c1doc (str "d") := by
      rw [chunkLargeFile_c1doc]
      exact List.mem_cons_of_mem _ (List.mem_cons_self _ _)
    rcases h c1chunk hm with hle | ⟨para, hpara, hgt⟩
    · rw [c1chunk_content_len] at hle
      exact absurd hle (by decide)
    · rw [splitParas_c1content] at hpara
      rcases List.mem_cons.mp hpara with rfl | hpara
      · exact absurd hgt (by decide)
      · rcases List.mem_cons.mp hpara with rfl | hpara
        · rw [c1sec_len] at hgt
          exact absurd hgt (by decide)
        · exact absurd hpara (List.not_mem_nil _)

/-- Claim C1 (amended): every chunk's content is a breadcrumb prefix followed
by a body; the body never exceeds the 10000-character budget, except when the
body is a single blank-line-delimited paragraph (emitted as an irreducible
unit).  The total content length may thus exceed the budget by at most the
length of the breadcrumb line. -/
theorem C1_bound_after_breadcrumb (content fn : Str) :
    ∀ ch ∈ chunkLargeFile content fn,
      ∃ pre body, ch.content = pre ++ body ∧
        (pre = [] ∨ ∃ path,
          pre = str "> " ++ extractDocTitle content ++ str " > " ++ path ++ str "\n\n") ∧
        (body.length ≤ CHUNK_CHAR_LIMIT ∨
          (CHUNK_CHAR_LIMIT < body.length ∧ splitParas body = [body])) :=
  chunkLargeFile_ok content fn

theorem C1_bound_after_breadcrumb_witness :
    ∃ pre body,
      (Chunk.mk (str "f::_intro") (str "0123456789ab")).content = pre ++ body ∧
      (pre = [] ∨ ∃ path,
        pre = str "> " ++ extractDocTitle (str "0123456789ab") ++ str " > " ++ path
          ++ str "\n\n") ∧
      (body.length ≤ CHUNK_CHAR_LIMIT ∨
        (CHUNK_CHAR_LIMIT < body.length ∧ splitParas body = [body])) :=
  C1_bound_after_breadcrumb (str "0123456789ab") (str "f")
    (Chunk.mk (str "f::_intro") (str "0123456789ab")) (by decide)

-- --- Claim C7 ---

/-- Claim C7's naming of subsection chunks is false as stated: in the
105007-character document `c7doc`, the `## S` section is over budget and is
split on `### `; the resulting subsection chunk is named `d::S > U` (section
and subsection joined by `" > "`), and no chunk named `d::S::U` exists. -/
theorem C7_counterexample :
    LARGE_FILE_THRESHOLD < c7doc.length ∧
    (chunkLargeFile c7doc (str "d")).map Chunk.filename
      = [str "d::_intro::part1", str "d::S > U"] ∧
    ¬ (str "d" ++ str "::" ++ str "S" ++ str "::" ++ str "U")
        ∈ (chunkLargeFile c7doc (str "d")).map Chunk.filename := by
  refine ⟨by rw [c7doc_len]; decide, ?_, ?_⟩
  · rw [chunkLargeFile_c7doc]
    rfl
  · rw [chunkLargeFile_c7doc]
    decide

/-- Claim C7 (amended): every chunk's filename begins with the parent
document's path followed by `::` (traceable to exactly one parent), and a
chunk produced by splitting an oversized section on third-level headings is
named `<doc>::<section> > <subsection>` — the section and subsection names are
joined by `" > "` within a single `::` path component (`::partN` is appended
when the subsection is further split by paragraphs). -/
theorem C7_filename_naming :
    (∀ content fn : Str, ∀ ch ∈ chunkLargeFile content fn,
        ∃ rest, ch.filename = fn ++ str "::" ++ rest) ∧
    (∀ docTitle fn sectionName subsec : Str,
        ∀ ch ∈ processSubsection docTitle fn sectionName subsec,
          ch.filename = fn ++ str "::" ++ subTitle sectionName subsec ∨
          ∃ j, ch.filename = partFile fn (subTitle sectionName subsec) j) :=
  ⟨chunkLargeFile_names, processSubsection_names⟩

theorem C7_filename_naming_witness :
    (∃ rest, (Chunk.mk (str "f::_intro") (str "0123456789ab")).filename
      = str "f" ++ str "::" ++ rest) ∧
    ((Chunk.mk (str "f::S") (str "> T > S\n\n0123456789ab")).filename
        = str "f" ++ str "::" ++ subTitle (str "S") (str "0123456789ab") ∨
      ∃ j, (Chunk.mk (str "f::S") (str "> T > S\n\n0123456789ab")).filename
        = partFile (str "f") (subTitle (str "S") (str "0123456789ab")) j) :=
  ⟨C7_filename_naming.1 (str "0123456789ab") (str "f")
      (Chunk.mk (str "f::_intro") (str "0123456789ab")) (by decide),
    C7_filename_naming.2 (str "T") (str "f") (str "S") (str "0123456789ab")
      (Chunk.mk (str "f::S") (str "> T > S\n\n0123456789ab")) (by decide)⟩

-- --- Incremental sync engine (ingestSource, scripts/ingest.ts lines 230-340) ---

/-- A freshly scanned (and possibly chunked) document:
`{ filename, content, hash, parentFile? }`. -/
structure ScannedDoc where
  filename : Str
  content : Str
  hash : Str
  parentFile : Option Str
deriving DecidableEq, Repr

/-- One row of the `documents` table (the columns the sync engine reads and
writes; `embedding` holds the vector written with the row). -/
structure StoreRow where
  filename : Str
  content : Str
  source : Str
  source_type : Str
  hash : Str
  embedding : List Int
deriving DecidableEq, Repr

/-- One `Map.set` step when building `existingHashes` (later rows overwrite). -/
def setAssoc (m : List (Str × Str)) (f h : Str) : List (Str × Str) :=
  if m.any (fun q => q.1 == f) then m.map (fun q => if q.1 == f then (f, h) else q)
  else m ++ [(f, h)]

/-- `SELECT filename, hash FROM documents WHERE source = ${source}` followed by
`existingHashes.set(row.filename, row.hash)` for each row. -/
def existingHashes (store : List StoreRow) (source : Str) : List (Str × Str) :=
  ((store.filter (fun r => r.source == source)).map (fun r => (r.filename, r.hash))).foldl
    (fun m q => setAssoc m q.1 q.2) []

/-- `existingHashes.get(filename)` (`undefined` becomes `none`). -/
def mapGet (m : List (Str × Str)) (f : Str) : Option Str :=
  (m.find? (fun q => q.1 == f)).map (fun q => q.2)

/-- `documents.filter((d) => existingHashes.get(d.filename) !== d.hash)`. -/
def toIndex (docs : List ScannedDoc) (store : List StoreRow) (source : Str) :
    List ScannedDoc :=
  docs.filter (fun d => mapGet (existingHashes store source) d.filename != some d.hash)

/-- `new Set(toIndex.filter((d) => d.parentFile).map((d) => d.parentFile!))` —
modelled as the list of parent names (with possible duplicates; only
membership matters for the deletes, which commute). -/
def changedParents (ti : List ScannedDoc) : List Str :=
  ti.filterMap (fun d => d.parentFile)

/-- `DELETE FROM documents WHERE source = ${source} AND filename LIKE
${parent + '::%'}` executed for every changed parent, before any upsert.
The `LIKE` pattern is a literal prefix match (parent paths contain no SQL
wildcard characters). -/
def deleteChangedParents (store : List StoreRow) (source : Str) (parents : List Str) :
    List StoreRow :=
  store.filter (fun r =>
    !(r.source == source && parents.any (fun p => (p ++ str "::").isPrefixOf r.filename)))

/-- Row key equality: the `(filename, source)` upsert key. -/
def sameKey (r : StoreRow) (f s : Str) : Bool :=
  r.filename == f && r.source == s

/-- `INSERT ... ON CONFLICT (filename, source) DO UPDATE SET content,
source_type, hash, embedding`. -/
def upsertRow (store : List StoreRow) (row : StoreRow) : List StoreRow :=
  if store.any (fun r => sameKey r row.filename row.source) then
    store.map (fun r =>
      if sameKey r row.filename row.source then
        { r with content := row.content, source_type := row.source_type,
                 hash := row.hash, embedding := row.embedding }
      else r)
  else store ++ [row]

/-- `texts = batch.map((d) => d.content.slice(0, CHUNK_CHAR_LIMIT))`:
the text actually sent to the Embedding Provider for each document. -/
def batchTexts (batch : List ScannedDoc) : List Str :=
  batch.map (fun d => d.content.take CHUNK_CHAR_LIMIT)

/-- The row written for a new/changed document: full content and hash, with
the embedding computed from the truncated text (the provider is modelled as a
function `embed` from text to vector, applied to the document's batch text). -/
def mkRow (embed : Str → List Int) (source source_type : Str) (d : ScannedDoc) : StoreRow :=
  ⟨d.filename, d.content, source, source_type, d.hash,
    embed (d.content.take CHUNK_CHAR_LIMIT)⟩

/-- The write phase of `ingestSource`: compute the new/changed set, delete
every record whose filename has a changed parent as `::`-prefix (all deletes
happen before any upsert), then upsert each new/changed document in batch
order. -/
def ingestApply (embed : Str → List Int) (source source_type : Str)
    (docs : List ScannedDoc) (store : List StoreRow) : List StoreRow :=
  (toIndex docs store source).foldl
    (fun st d => upsertRow st (mkRow embed source source_type d))
    (deleteChangedParents store source (changedParents (toIndex docs store source)))

theorem foldl_setAssoc_eq : ∀ (pairs acc : List (Str × Str)),
    (pairs.map Prod.fst).Nodup →
    (∀ q ∈ pairs, ∀ a ∈ acc, a.1 ≠ q.1) →
    pairs.foldl (fun m q => setAssoc m q.1 q.2) acc = acc ++ pairs := by
  intro pairs
  induction pairs with
  | nil => intro acc _ _; simp
  | cons q rest ih =>
    intro acc hnodup hdisj
    rw [List.foldl_cons]
    have hq : setAssoc acc q.1 q.2 = acc ++ [q] := by
      rw [setAssoc, if_neg]
      intro hany
      rcases List.any_eq_true.mp hany with ⟨a, ha, hae⟩
      exact hdisj q (List.mem_cons_self _ _) a ha (by simpa using hae)
    rw [List.map_cons, List.nodup_cons] at hnodup
    rw [hq, ih (acc ++ [q]) hnodup.2]
    · rw [← List.append_cons]
    · intro q' hq' a ha
      rcases List.mem_append.mp ha with ha | ha
      · exact hdisj q' (List.mem_cons_of_mem _ hq') a ha
      · rw [List.mem_singleton] at ha
        subst ha
        intro he
        exact hnodup.1 (he ▸ List.mem_map_of_mem Prod.fst hq')

theorem existingHashes_eq {store : List StoreRow} {source : Str}
    (hnodup : ((store.filter (fun r => r.source == source)).map
        (fun r => r.filename)).Nodup) :
    existingHashes store source
      = (store.filter (fun r => r.source == source)).map (fun r => (r.filename, r.hash)) := by
  rw [existingHashes, foldl_setAssoc_eq _ []]
  · rw [List.nil_append]
  · rw [List.map_map]
    exact hnodup
  · intro q _ a ha
    exact absurd ha (List.not_mem_nil _)

theorem find?_key_nodup : ∀ {l : List (Str × Str)}, (l.map Prod.fst).Nodup →
    ∀ {q : Str × Str}, q ∈ l → l.find? (fun a => a.1 == q.1) = some q := by
  intro l
  induction l with
  | nil => intro _ q hq; cases hq
  | cons a rest ih =>
    intro hnodup q hq
    rw [List.map_cons, List.nodup_cons] at hnodup
    rcases List.mem_cons.mp hq with rfl | hq
    · have step : List.find? (fun x : Str × Str => x.1 == q.1) (q :: rest) = some q :=
        List.find?_cons_of_pos _ (by simp)
      rw [step]
    · have hne : a.1 ≠ q.1 := by
        intro he
        exact hnodup.1 (he ▸ List.mem_map_of_mem Prod.fst hq)
      have step : List.find? (fun x : Str × Str => x.1 == q.1) (a :: rest)
          = List.find? (fun x : Str × Str => x.1 == q.1) rest :=
        List.find?_cons_of_neg _ (by simpa using hne)
      rw [step]
      exact ih hnodup.2 hq

theorem mapGet_some_iff {store : List StoreRow} {source f h : Str}
    (hnodup : ((store.filter (fun r => r.source == source)).map
        (fun r => r.filename)).Nodup) :
    mapGet (existingHashes store source) f = some h ↔
      ∃ r ∈ store, r.source = source ∧ r.filename = f ∧ r.hash = h := by
  rw [existingHashes_eq hnodup, mapGet]
  constructor
  · intro hm
    rcases Option.map_eq_some'.mp hm with ⟨q, hfind, hq2⟩
    have hmem := List.mem_of_find?_eq_some hfind
    have hpred := List.find?_some hfind
    rcases List.mem_map.mp hmem with ⟨r, hr, rfl⟩
    have hrs := List.mem_filter.mp hr
    refine ⟨r, hrs.1, by simpa using hrs.2, by simpa using hpred, hq2⟩
  · rintro ⟨r, hr, hsrc, hfn, hh⟩
    have hmem : (r.filename, r.hash) ∈ (store.filter (fun r => r.source == source)).map
        (fun r => (r.filename, r.hash)) :=
      List.mem_map_of_mem _ (List.mem_filter.mpr ⟨hr, by simpa using hsrc⟩)
    have hfind := find?_key_nodup (by rw [List.map_map]; exact hnodup) hmem
    have hkey : (fun a : Str × Str => a.1 == (r.filename, r.hash).1)
        = fun a : Str × Str => a.1 == f := by
      rw [hfn]
    rw [hkey] at hfind
    rw [hfind, hh]
    rfl

-- --- Claim C4 ---

/-- Claim C4: a freshly computed tuple is skipped (left out of `toIndex`) iff
the store currently holds a record with the same filename for that source
whose fingerprint equals the tuple's; every other tuple is queued.  The
hypothesis is the store's uniqueness invariant on `(filename, source)`
(schema index `idx_documents_filename_source`). -/
theorem C4_skip_iff (docs : List ScannedDoc) (store : List StoreRow) (source : Str)
    (hnodup : ((store.filter (fun r => r.source == source)).map
        (fun r => r.filename)).Nodup)
    (d : ScannedDoc) (hd : d ∈ docs) :
    d ∉ toIndex docs store source ↔
      ∃ r ∈ store, r.source = source ∧ r.filename = d.filename ∧ r.hash = d.hash := by
  rw [toIndex]
  constructor
  · intro hnot
    have hp : ¬ (mapGet (existingHashes store source) d.filename != some d.hash) = true := by
      intro hp
      exact hnot (List.mem_filter.mpr ⟨hd, hp⟩)
    rw [bne_iff_ne, not_ne_iff] at hp
    exact (mapGet_some_iff hnodup).mp hp
  · intro hex hmem
    have hp := (List.mem_filter.mp hmem).2
    rw [bne_iff_ne] at hp
    exact hp ((mapGet_some_iff hnodup).mpr hex)

theorem C4_skip_iff_witness :
    (⟨str "a", str "xyz", str "h1", none⟩ : ScannedDoc)
        ∉ toIndex [⟨str "a", str "xyz", str "h1", none⟩]
          [⟨str "a", str "xyz", str "s", str "t", str "h1", []⟩] (str "s") ↔
      ∃ r ∈ [(⟨str "a", str "xyz", str "s", str "t", str "h1", []⟩ : StoreRow)],
        r.source = str "s" ∧ r.filename = str "a" ∧ r.hash = str "h1" :=
  C4_skip_iff [⟨str "a", str "xyz", str "h1", none⟩]
    [⟨str "a", str "xyz", str "s", str "t", str "h1", []⟩] (str "s")
    (by decide) ⟨str "a", str "xyz", str "h1", none⟩ (by decide)

-- --- Claim C2 ---

/-- The two freshly scanned chunks of parent `P`: chunk `A` changed
(hash `h1`, store holds `h0`), chunk `B` unchanged (hash `h2` both sides). -/
def c2docs : List ScannedDoc :=
  [⟨str "P::A", str "xA", str "h1", some (str "P")⟩,
   ⟨str "P::B", str "xB", str "h2", some (str "P")⟩]

/-- The prior store state for source `s`: both chunks present, `A` stale. -/
def c2store : List StoreRow :=
  [⟨str "P::A", str "xA0", str "s", str "t", str "h0", []⟩,
   ⟨str "P::B", str "xB", str "s", str "t", str "h2", []⟩]

/-- Claim C2 is false on the code (code bug): running the sync once on
`c2docs`/`c2store` deletes the unchanged sibling chunk `P::B` via the parent
prefix-delete but re-writes only the changed chunk `P::A`; re-running the
diff then classifies `P::B` as new (non-empty diff), and `P::B` is absent
from the store after the run. -/
theorem C2_not_fixed_point :
    toIndex c2docs (ingestApply (fun _ => []) (str "s") (str "t") c2docs c2store) (str "s")
      = [⟨str "P::B", str "xB", str "h2", some (str "P")⟩] ∧
    ¬ ∃ r ∈ ingestApply (fun _ => []) (str "s") (str "t") c2docs c2store,
        r.filename = str "P::B" := by
  constructor
  · decide
  · decide

-- --- Claim C10 ---

/-- Claim C10: the text sent to the Embedding Provider is the first 10000
characters of the content (`content.slice(0, CHUNK_CHAR_LIMIT)`), the stored
row keeps the full untruncated content, and two documents agreeing on their
first 10000 characters get identical embedding inputs (hence identical
stored embeddings). -/
theorem C10_embedding_truncation (embed : Str → List Int) (source stype : Str) :
    (∀ batch : List ScannedDoc, ∀ t ∈ batchTexts batch, t.length ≤ CHUNK_CHAR_LIMIT) ∧
    (∀ d : ScannedDoc, (mkRow embed source stype d).content = d.content ∧
        (mkRow embed source stype d).embedding = embed (d.content.take CHUNK_CHAR_LIMIT)) ∧
    (∀ d1 d2 : ScannedDoc,
        d1.content.take CHUNK_CHAR_LIMIT = d2.content.take CHUNK_CHAR_LIMIT →
        (mkRow embed source stype d1).embedding = (mkRow embed source stype d2).embedding) := by
  refine ⟨?_, ?_, ?_⟩
  · intro batch t ht
    rcases List.mem_map.mp ht with ⟨d, _, rfl⟩
    rw [List.length_take]
    exact Nat.min_le_left _ _
  · intro d
    exact ⟨rfl, rfl⟩
  · intro d1 d2 he
    show embed (d1.content.take CHUNK_CHAR_LIMIT) = embed (d2.content.take CHUNK_CHAR_LIMIT)
    rw [he]

theorem C10_embedding_truncation_witness :
    ((str "abc").take CHUNK_CHAR_LIMIT).length ≤ CHUNK_CHAR_LIMIT ∧
    (mkRow (fun s => [(s.length : Int)]) (str "s") (str "t")
        ⟨str "a", str "abc", str "h", none⟩).content = str "abc" ∧
    (mkRow (fun s => [(s.length : Int)]) (str "s") (str "t")
          ⟨str "a", str "abc", str "h", none⟩).embedding
        = (mkRow (fun s => [(s.length : Int)]) (str "s") (str "t")
          ⟨str "b", str "abc", str "h2", none⟩).embedding :=
  ⟨(C10_embedding_truncation (fun s => [(s.length : Int)]) (str "s") (str "t")).1
      [⟨str "a", str "abc", str "h", none⟩] ((str "abc").take CHUNK_CHAR_LIMIT)
      (by decide),
    ((C10_embedding_truncation (fun s => [(s.length : Int)]) (str "s") (str "t")).2.1
      ⟨str "a", str "abc", str "h", none⟩).1,
    (C10_embedding_truncation (fun s => [(s.length : Int)]) (str "s") (str "t")).2.2
      ⟨str "a", str "abc", str "h", none⟩ ⟨str "b", str "abc", str "h2", none⟩ rfl⟩

theorem upsertRow_mem {st : List StoreRow} {w r : StoreRow} (h : r ∈ upsertRow st w) :
    r ∈ st ∨ (r.filename = w.filename ∧ r.source = w.source ∧ r.hash = w.hash
      ∧ r.content = w.content) := by
  rw [upsertRow] at h
  split_ifs at h with hc
  · rcases List.mem_map.mp h with ⟨r0, hr0, rfl⟩
    by_cases hk : sameKey r0 w.filename w.source = true
    · rw [if_pos hk]
      rw [sameKey, Bool.and_eq_true, beq_iff_eq, beq_iff_eq] at hk
      exact Or.inr ⟨hk.1, hk.2, rfl, rfl⟩
    · rw [if_neg hk]
      exact Or.inl hr0
  · rcases List.mem_append.mp h with h | h
    · exact Or.inl h
    · rw [List.mem_singleton] at h
      exact Or.inr ⟨by rw [h], by rw [h], by rw [h], by rw [h]⟩

theorem upsertRow_contains (st : List StoreRow) (w : StoreRow) :
    ∃ r ∈ upsertRow st w, r.filename = w.filename ∧ r.source = w.source
      ∧ r.hash = w.hash ∧ r.content = w.content := by
  rw [upsertRow]
  split_ifs with hc
  · rcases List.any_eq_true.mp hc with ⟨r0, hr0, hk⟩
    refine ⟨⟨r0.filename, w.content, r0.source, w.source_type, w.hash, w.embedding⟩, ?_, ?_⟩
    · exact List.mem_map.mpr ⟨r0, hr0, by rw [if_pos hk]⟩
    · rw [sameKey, Bool.and_eq_true, beq_iff_eq, beq_iff_eq] at hk
      exact ⟨hk.1, hk.2, rfl, rfl⟩
  · exact ⟨w, List.mem_append.mpr (Or.inr (List.mem_singleton.mpr rfl)), rfl, rfl, rfl, rfl⟩

theorem upsertRow_preserve {st : List StoreRow} {r : StoreRow} (w : StoreRow)
    (hr : r ∈ st) (hne : ¬(r.filename = w.filename ∧ r.source = w.source)) :
    r ∈ upsertRow st w := by
  rw [upsertRow]
  split_ifs with hc
  · refine List.mem_map.mpr ⟨r, hr, ?_⟩
    rw [if_neg]
    intro hk
    rw [sameKey, Bool.and_eq_true, beq_iff_eq, beq_iff_eq] at hk
    exact hne hk
  · exact List.mem_append.mpr (Or.inl hr)

theorem foldUpsert_mem : ∀ (rows st : List StoreRow) (r : StoreRow),
    r ∈ rows.foldl upsertRow st →
    r ∈ st ∨ ∃ w ∈ rows, r.filename = w.filename ∧ r.source = w.source
      ∧ r.hash = w.hash ∧ r.content = w.content := by
  intro rows
  induction rows with
  | nil => intro st r h; exact Or.inl h
  | cons w rest ih =>
    intro st r h
    rw [List.foldl_cons] at h
    rcases ih (upsertRow st w) r h with h | ⟨w1, hw1, hf⟩
    · rcases upsertRow_mem h with h | hf
      · exact Or.inl h
      · exact Or.inr ⟨w, List.mem_cons_self _ _, hf⟩
    · exact Or.inr ⟨w1, List.mem_cons_of_mem _ hw1, hf⟩

theorem foldUpsert_preserve : ∀ (rows st : List StoreRow) (r : StoreRow),
    r ∈ st → (∀ w ∈ rows, ¬(r.filename = w.filename ∧ r.source = w.source)) →
    r ∈ rows.foldl upsertRow st := by
  intro rows
  induction rows with
  | nil => intro st r hr _; exact hr
  | cons w rest ih =>
    intro st r hr hall
    rw [List.foldl_cons]
    exact ih _ r (upsertRow_preserve w hr (hall w (List.mem_cons_self _ _)))
      (fun w1 hw1 => hall w1 (List.mem_cons_of_mem _ hw1))

theorem foldUpsert_contains : ∀ (rows st : List StoreRow) (w : StoreRow),
    w ∈ rows →
    rows.Pairwise (fun a b => ¬(a.filename = b.filename ∧ a.source = b.source)) →
    ∃ r ∈ rows.foldl upsertRow st, r.filename = w.filename ∧ r.source = w.source
      ∧ r.hash = w.hash := by
  intro rows
  induction rows with
  | nil => intro st w h; cases h
  | cons w0 rest ih =>
    intro st w hw hpw
    rw [List.foldl_cons]
    rw [List.pairwise_cons] at hpw
    rcases List.mem_cons.mp hw with rfl | hw
    · rcases upsertRow_contains st w with ⟨r, hr, hf1, hf2, hf3, _⟩
      refine ⟨r, ?_, hf1, hf2, hf3⟩
      refine foldUpsert_preserve rest _ r hr ?_
      intro w1 hw1 hk
      exact hpw.1 w1 hw1 ⟨hf1 ▸ hk.1, hf2 ▸ hk.2⟩
    · exact ih _ w hw hpw.2

theorem ingestApply_eq (embed : Str → List Int) (source stype : Str)
    (docs : List ScannedDoc) (store : List StoreRow) :
    ingestApply embed source stype docs store
      = ((toIndex docs store source).map (mkRow embed source stype)).foldl upsertRow
          (deleteChangedParents store source (changedParents (toIndex docs store source))) := by
  rw [ingestApply, List.foldl_map]

-- --- Claim C3 ---

/-- Claim C3: for a parent `p` with at least one changed child, the run first
deletes every record (for the source) whose filename has `p::` as prefix —
conjunct (a): no such record survives the delete phase, which precedes every
upsert — then writes the new child set; after the run, (b) every record with
the `p::` prefix is one of the newly computed new/changed children of `p`,
and (c) every new/changed child of `p` is present.  The hypotheses are the
chunker's naming discipline (a filename with prefix `p::` belongs to a chunk
of parent `p`, claim C7) and uniqueness of scanned filenames. -/
theorem C3_prefix_cleanup (embed : Str → List Int) (source stype : Str)
    (docs : List ScannedDoc) (store : List StoreRow) (p : Str)
    (hdisc : ∀ d ∈ docs, ((p ++ str "::").isPrefixOf d.filename) = true →
      d.parentFile = some p)
    (hnodup : (docs.map (fun d => d.filename)).Nodup)
    (hp : p ∈ changedParents (toIndex docs store source)) :
    (∀ r ∈ deleteChangedParents store source (changedParents (toIndex docs store source)),
        r.source = source → ((p ++ str "::").isPrefixOf r.filename) = false) ∧
    (∀ r ∈ ingestApply embed source stype docs store,
        r.source = source → ((p ++ str "::").isPrefixOf r.filename) = true →
        ∃ d ∈ toIndex docs store source, d.parentFile = some p ∧
          r.filename = d.filename ∧ r.hash = d.hash ∧ r.content = d.content) ∧
    (∀ d ∈ toIndex docs store source, d.parentFile = some p →
        ∃ r ∈ ingestApply embed source stype docs store,
          r.filename = d.filename ∧ r.source = source ∧ r.hash = d.hash) := by
  have parta : ∀ r ∈ deleteChangedParents store source
      (changedParents (toIndex docs store source)),
      r.source = source → ((p ++ str "::").isPrefixOf r.filename) = false := by
    intro r hr hsrc
    have hkeep := (List.mem_filter.mp hr).2
    rw [Bool.not_eq_true'] at hkeep
    cases hpre : ((p ++ str "::").isPrefixOf r.filename) with
    | false => rfl
    | true =>
      exfalso
      have hany : (changedParents (toIndex docs store source)).any
          (fun q => (q ++ str "::").isPrefixOf r.filename) = true :=
        List.any_eq_true.mpr ⟨p, hp, hpre⟩
      rw [hsrc, hany] at hkeep
      simp at hkeep
  refine ⟨parta, ?_, ?_⟩
  · intro r hr hsrc hpre
    rw [ingestApply_eq] at hr
    rcases foldUpsert_mem _ _ _ hr with hdel | ⟨w, hw, hf⟩
    · have hfalse := parta r hdel hsrc
      rw [hpre] at hfalse
      exact absurd hfalse (by decide)
    · rcases List.mem_map.mp hw with ⟨d, hd, rfl⟩
      have hrf : r.filename = d.filename := hf.1
      have hrh : r.hash = d.hash := hf.2.2.1
      have hrc : r.content = d.content := hf.2.2.2
      refine ⟨d, hd, ?_, hrf, hrh, hrc⟩
      refine hdisc d (List.mem_of_mem_filter hd) ?_
      rw [← hrf]
      exact hpre
  · intro d hd hdp
    rw [ingestApply_eq]
    have hw : mkRow embed source stype d
        ∈ (toIndex docs store source).map (mkRow embed source stype) :=
      List.mem_map_of_mem _ hd
    have h1 : (toIndex docs store source).Pairwise
        (fun a b => a.filename ≠ b.filename) := by
      have hsub : (toIndex docs store source).Sublist docs := List.filter_sublist docs
      have h2 : ((toIndex docs store source).map (fun d => d.filename)).Nodup :=
        List.Nodup.sublist (hsub.map _) hnodup
      exact List.pairwise_map.mp h2
    have hpw : ((toIndex docs store source).map (mkRow embed source stype)).Pairwise
        (fun a b => ¬(a.filename = b.filename ∧ a.source = b.source)) := by
      refine List.pairwise_map.mpr (h1.imp ?_)
      intro a b hab hk
      exact hab hk.1
    rcases foldUpsert_contains _ (deleteChangedParents store source
        (changedParents (toIndex docs store source))) _ hw hpw with ⟨r, hr, hf1, hf2, hf3⟩
    exact ⟨r, hr, hf1, hf2, hf3⟩

theorem C3_prefix_cleanup_witness :
    (∀ r ∈ deleteChangedParents
        [⟨str "P::A", str "o", str "s", str "t", str "h0", []⟩,
         ⟨str "P::C", str "c", str "s", str "t", str "hc", []⟩] (str "s")
        (changedParents (toIndex [⟨str "P::A", str "x", str "h1", some (str "P")⟩]
          [⟨str "P::A", str "o", str "s", str "t", str "h0", []⟩,
           ⟨str "P::C", str "c", str "s", str "t", str "hc", []⟩] (str "s"))),
        r.source = str "s" → ((str "P" ++ str "::").isPrefixOf r.filename) = false) ∧
    (∀ r ∈ ingestApply (fun _ => []) (str "s") (str "t")
        [⟨str "P::A", str "x", str "h1", some (str "P")⟩]
        [⟨str "P::A", str "o", str "s", str "t", str "h0", []⟩,
         ⟨str "P::C", str "c", str "s", str "t", str "hc", []⟩],
        r.source = str "s" → ((str "P" ++ str "::").isPrefixOf r.filename) = true →
        ∃ d ∈ toIndex [⟨str "P::A", str "x", str "h1", some (str "P")⟩]
          [⟨str "P::A", str "o", str "s", str "t", str "h0", []⟩,
           ⟨str "P::C", str "c", str "s", str "t", str "hc", []⟩] (str "s"),
          d.parentFile = some (str "P") ∧
          r.filename = d.filename ∧ r.hash = d.hash ∧ r.content = d.content) ∧
    (∀ d ∈ toIndex [⟨str "P::A", str "x", str "h1", some (str "P")⟩]
        [⟨str "P::A", str "o", str "s", str "t", str "h0", []⟩,
         ⟨str "P::C", str "c", str "s", str "t", str "hc", []⟩] (str "s"),
        d.parentFile = some (str "P") →
        ∃ r ∈ ingestApply (fun _ => []) (str "s") (str "t")
          [⟨str "P::A", str "x", str "h1", some (str "P")⟩]
          [⟨str "P::A", str "o", str "s", str "t", str "h0", []⟩,
           ⟨str "P::C", str "c", str "s", str "t", str "hc", []⟩],
          r.filename = d.filename ∧ r.source = str "s" ∧ r.hash = d.hash) :=
  C3_prefix_cleanup (fun _ => []) (str "s") (str "t")
    [⟨str "P::A", str "x", str "h1", some (str "P")⟩]
    [⟨str "P::A", str "o", str "s", str "t", str "h0", []⟩,
     ⟨str "P::C", str "c", str "s", str "t", str "hc", []⟩] (str "P")
    (by decide) (by decide) (by decide)

-- --- Embedding Provider retry loop (getEmbeddings, scripts/ingest.ts lines 55-91) ---

/-- One attempt's outcome of the `fetch` to the Workers AI endpoint. -/
inductive FetchOutcome where
  | rateLimited
  | netFailure
  | httpError (code : Nat)
  | okUnsuccessful
  | okData (data : List (List Int))
deriving DecidableEq, Repr

def MAX_RETRIES : Nat := 5

/-- The retry loop of `getEmbeddings`: at most `MAX_RETRIES` attempts; on a
429 the loop sleeps `Math.pow(2, attempt + 1) * 1000` milliseconds and
continues; a rejected `fetch` (network failure) or a non-ok / unsuccessful
response throws immediately (`Except.error`).  The second component records
the backoff waits performed. -/
def getEmbeddingsGo (fetch : Nat → FetchOutcome) :
    Nat → Nat → Except Str (List (List Int)) × List Nat
  | 0, _ => (Except.error (str "Cloudflare AI: max retries exceeded (rate limited)"), [])
  | remaining + 1, attempt =>
    match fetch attempt with
    | .rateLimited =>
      let rest := getEmbeddingsGo fetch remaining (attempt + 1)
      (rest.1, 2 ^ (attempt + 1) * 1000 :: rest.2)
    | .netFailure => (Except.error (str "fetch failed"), [])
    | .httpError _ => (Except.error (str "Cloudflare AI error"), [])
    | .okUnsuccessful => (Except.error (str "Cloudflare AI: request failed"), [])
    | .okData d => (Except.ok d, [])

/-- `getEmbeddings` with the per-attempt responses given by the oracle. -/
def getEmbeddings (fetch : Nat → FetchOutcome) :
    Except Str (List (List Int)) × List Nat :=
  getEmbeddingsGo fetch MAX_RETRIES 0

/-- The per-batch write loop of `ingestSource`: upsert every document of the
batch (with its embedding). -/
def applyBatch (embed : Str → List Int) (source stype : Str)
    (store : List StoreRow) (batch : List ScannedDoc) : List StoreRow :=
  batch.foldl (fun st d => upsertRow st (mkRow embed source stype d)) store

/-- The batch loop of `ingestSource`: process batches in order; a batch whose
embedding call fails aborts the run (the error propagates), leaving the
already-written batches committed. -/
def runBatches (embed : Str → List Int) (outcome : Nat → Except Str Unit)
    (source stype : Str) : List (List ScannedDoc) → Nat → List StoreRow →
    Except Str Unit × List StoreRow
  | [], _, store => (Except.ok (), store)
  | batch :: rest, i, store =>
    match outcome i with
    | .error e => (.error e, store)
    | .ok _ => runBatches embed outcome source stype rest (i + 1)
        (applyBatch embed source stype store batch)

theorem getEmbeddingsGo_ok (fetch : Nat → FetchOutcome) :
    ∀ (k remaining attempt : Nat) (d : List (List Int)),
      k < remaining →
      (∀ j, j < k → fetch (attempt + j) = .rateLimited) →
      fetch (attempt + k) = .okData d →
      getEmbeddingsGo fetch remaining attempt
        = (Except.ok d, (List.range k).map (fun j => 2 ^ (attempt + j + 1) * 1000)) := by
  intro k
  induction k with
  | zero =>
    intro remaining attempt d hk _ hok
    cases remaining with
    | zero => omega
    | succ r =>
      rw [getEmbeddingsGo]
      rw [show fetch attempt = .okData d from by simpa using hok]
      rfl
  | succ k ih =>
    intro remaining attempt d hk hrl hok
    cases remaining with
    | zero => omega
    | succ r =>
      rw [getEmbeddingsGo]
      rw [show fetch attempt = .rateLimited from by simpa using hrl 0 (by omega)]
      have hrest := ih r (attempt + 1) d (by omega)
        (fun j hj => by
          have := hrl (j + 1) (by omega)
          rw [show attempt + 1 + j = attempt + (j + 1) from by omega]
          exact this)
        (by rw [show attempt + 1 + k = attempt + (k + 1) from by omega]; exact hok)
      rw [hrest]
      refine Prod.ext rfl ?_
      show 2 ^ (attempt + 1) * 1000
            :: (List.range k).map (fun j => 2 ^ (attempt + 1 + j + 1) * 1000)
          = (List.range (k + 1)).map (fun j => 2 ^ (attempt + j + 1) * 1000)
      rw [List.range_succ_eq_map, List.map_cons, List.map_map]
      refine congrArg₂ _ (by rw [Nat.add_zero]) ?_
      refine List.map_congr_left ?_
      intro j _
      show 2 ^ (attempt + 1 + j + 1) * 1000 = 2 ^ (attempt + (j + 1) + 1) * 1000
      rw [show attempt + 1 + j + 1 = attempt + (j + 1) + 1 from by omega]

theorem getEmbeddingsGo_exhaust (fetch : Nat → FetchOutcome) :
    ∀ (remaining attempt : Nat),
      (∀ j, j < remaining → fetch (attempt + j) = .rateLimited) →
      (getEmbeddingsGo fetch remaining attempt).1
        = Except.error (str "Cloudflare AI: max retries exceeded (rate limited)") := by
  intro remaining
  induction remaining with
  | zero => intro attempt _; rfl
  | succ r ih =>
    intro attempt hrl
    rw [getEmbeddingsGo]
    rw [show fetch attempt = .rateLimited from by simpa using hrl 0 (by omega)]
    exact ih (attempt + 1) (fun j hj => by
      rw [show attempt + 1 + j = attempt + (j + 1) from by omega]
      exact hrl (j + 1) (by omega))

theorem runBatches_commit (embed : Str → List Int) (outcome : Nat → Except Str Unit)
    (s t : Str) :
    ∀ (batches : List (List ScannedDoc)) (start : Nat) (store : List StoreRow)
      (i : Nat) (e : Str),
      i < batches.length →
      (∀ j, j < i → outcome (start + j) = Except.ok ()) →
      outcome (start + i) = Except.error e →
      runBatches embed outcome s t batches start store
        = (Except.error e, ((batches.take i).foldl (applyBatch embed s t) store)) := by
  intro batches
  induction batches with
  | nil => intro start store i e hi _ _; simp at hi
  | cons b rest ih =>
    intro start store i e hi hok herr
    cases i with
    | zero =>
      rw [runBatches]
      rw [show outcome start = Except.error e from by simpa using herr]
      rfl
    | succ i =>
      rw [runBatches]
      rw [show outcome start = Except.ok () from by simpa using hok 0 (by omega)]
      rw [ih (start + 1) (applyBatch embed s t store b) i e (by simpa using hi)
        (fun j hj => by
          rw [show start + 1 + j = start + (j + 1) from by omega]
          exact hok (j + 1) (by omega))
        (by rw [show start + 1 + i = start + (i + 1) from by omega]; exact herr)]
      rw [List.take_succ_cons, List.foldl_cons]

-- --- Claim C9 ---

/-- The literal reading of claim C9: every transient failure — a rate-limit
response or a network failure — is retried.  Formally: whenever every attempt
before `k` fails transiently and attempt `k < 5` succeeds, the call returns
the data. -/
def claimC9 : Prop :=
  ∀ (fetch : Nat → FetchOutcome) (k : Nat) (d : List (List Int)),
    k < MAX_RETRIES →
    (∀ j, j < k → fetch j = FetchOutcome.rateLimited ∨ fetch j = FetchOutcome.netFailure) →
    fetch k = FetchOutcome.okData d →
    (getEmbeddings fetch).1 = Except.ok d

/-- Claim C9 is false as stated: a network failure on the first attempt with
a successful second attempt makes `getEmbeddings` throw immediately — network
failures are not retried, only HTTP 429 responses are. -/
theorem C9_counterexample : ¬ claimC9 := by
  intro h
  have := h (fun n => if n = 0 then .netFailure else .okData [[1]]) 1 [[1]]
    (by decide)
    (fun j hj => by
      rw [show j = 0 from by omega]
      exact Or.inr rfl)
    rfl
  rw [show (getEmbeddings (fun n => if n = 0 then .netFailure else .okData [[1]])).1
    = Except.error (str "fetch failed") from rfl] at this
  exact Except.noConfusion this

/-- Claim C9 (amended): only rate-limit (HTTP 429) responses are retried,
with exponential backoff of `2^(attempt+1)` seconds, up to 5 attempts; five
consecutive rate limits raise the fatal `max retries exceeded` error; a
network failure (or any non-ok response) raises immediately without retry;
and a failure at batch `i` leaves batches `0..i-1` committed in the store. -/
theorem C9_retry_behavior :
    (∀ (fetch : Nat → FetchOutcome) (k : Nat) (d : List (List Int)),
        k < MAX_RETRIES →
        (∀ j, j < k → fetch j = FetchOutcome.rateLimited) →
        fetch k = FetchOutcome.okData d →
        getEmbeddings fetch
          = (Except.ok d, (List.range k).map (fun j => 2 ^ (j + 1) * 1000))) ∧
    (∀ fetch : Nat → FetchOutcome,
        (∀ j, j < MAX_RETRIES → fetch j = FetchOutcome.rateLimited) →
        (getEmbeddings fetch).1
          = Except.error (str "Cloudflare AI: max retries exceeded (rate limited)")) ∧
    (∀ fetch : Nat → FetchOutcome, fetch 0 = FetchOutcome.netFailure →
        (getEmbeddings fetch).1 = Except.error (str "fetch failed")) ∧
    (∀ (embed : Str → List Int) (outcome : Nat → Except Str Unit) (s t : Str)
        (batches : List (List ScannedDoc)) (store : List StoreRow) (i : Nat) (e : Str),
        i < batches.length →
        (∀ j, j < i → outcome j = Except.ok ()) →
        outcome i = Except.error e →
        runBatches embed outcome s t batches 0 store
          = (Except.error e, (batches.take i).foldl (applyBatch embed s t) store)) := by
  refine ⟨?_, ?_, ?_, ?_⟩
  · intro fetch k d hk hrl hok
    have hgo := getEmbeddingsGo_ok fetch k MAX_RETRIES 0 d hk
      (fun j hj => by simpa using hrl j hj) (by simpa using hok)
    rw [getEmbeddings, hgo]
    refine Prod.ext rfl ?_
    refine List.map_congr_left ?_
    intro j _
    rw [Nat.zero_add]
  · intro fetch hrl
    exact getEmbeddingsGo_exhaust fetch MAX_RETRIES 0 (fun j hj => by simpa using hrl j hj)
  · intro fetch h0
    rw [getEmbeddings, MAX_RETRIES, getEmbeddingsGo, h0]
  · intro embed outcome s t batches store i e hi hok herr
    exact runBatches_commit embed outcome s t batches 0 store i e hi
      (fun j hj => by simpa using hok j hj) (by simpa using herr)

theorem C9_retry_behavior_witness :
    getEmbeddings (fun n => if n < 2 then FetchOutcome.rateLimited
        else FetchOutcome.okData [[2]])
      = (Except.ok [[2]], (List.range 2).map (fun j => 2 ^ (j + 1) * 1000)) ∧
    (getEmbeddings (fun _ => FetchOutcome.rateLimited)).1
      = Except.error (str "Cloudflare AI: max retries exceeded (rate limited)") ∧
    (getEmbeddings (fun _ => FetchOutcome.netFailure)).1
      = Except.error (str "fetch failed") ∧
    runBatches (fun _ => []) (fun i => if i = 0 then Except.ok () else Except.error (str "boom"))
        (str "s") (str "t") [[], []] 0 []
      = (Except.error (str "boom"),
          (([[], []] : List (List ScannedDoc)).take 1).foldl
            (applyBatch (fun _ => []) (str "s") (str "t")) []) :=
  ⟨C9_retry_behavior.1 (fun n => if n < 2 then .rateLimited else .okData [[2]]) 2 [[2]]
      (by decide)
      (fun j hj => by
        show (if j < 2 then FetchOutcome.rateLimited else FetchOutcome.okData [[2]])
          = FetchOutcome.rateLimited
        rw [if_pos hj])
      (by decide),
    C9_retry_behavior.2.1 (fun _ => .rateLimited) (fun _ _ => rfl),
    C9_retry_behavior.2.2.1 (fun _ => .netFailure) rfl,
    C9_retry_behavior.2.2.2 (fun _ => []) (fun i => if i = 0 then .ok () else .error (str "boom"))
      (str "s") (str "t") [[], []] [] 1 (str "boom") (by decide)
      (fun j hj => by
        show (if j = 0 then Except.ok () else Except.error (str "boom")) = Except.ok ()
        rw [if_pos (by omega)])
      rfl⟩

/-! ### Query router (src/src/index.ts)

The `detectQueryType` regexes are embedded as executable matchers over `Str`
(`[A-Z]`, `\w` = `[A-Za-z0-9_]`, `\d` = `[0-9]`, as in a JS regex without the
Unicode flag); `.test` is existence of a match at some position, implemented
with full backtracking over the quantifiers.  `keywordSearch` and
`vectorSearch` run against the database and the embedding provider, so
`searchDocuments` takes their per-query result lists as oracles and returns,
besides the result list, a flag recording whether the embedding path ran. -/

/-- JS character class term `[A-Z]`. -/
def isUpperAZ (c : Char) : Bool := decide ('A' ≤ c) && decide (c ≤ 'Z')

/-- JS character class term `[a-z]`. -/
def isLowerAZ (c : Char) : Bool := decide ('a' ≤ c) && decide (c ≤ 'z')

/-- JS character class `\d` = `[0-9]`. -/
def isDigit09 (c : Char) : Bool := decide ('0' ≤ c) && decide (c ≤ '9')

/-- JS character class `\w` = `[A-Za-z0-9_]`. -/
def isWordCh (c : Char) : Bool := isUpperAZ c || isLowerAZ c || isDigit09 c || c == '_'

/-- The pattern `\.\d+` at the start of the string (tail of the entity-code regex:
`\d+` is last, so one digit suffices). -/
def dotDigits : Str → Bool
  | '.' :: c :: _ => isDigit09 c
  | _ => false

/-- The pattern `\w+\.\d+` at the start of the string: consume one word character,
then either the `\.\d+` tail matches here or consume further word characters. -/
def wDotD : Str → Bool
  | [] => false
  | c :: rest => isWordCh c && (dotDigits rest || wDotD rest)

/-- Continuation of `[A-Z]{2,}\.\w+\.\d+` after two uppercase letters: either the
literal dot and the rest of the pattern match here, or consume a further
uppercase letter. -/
def upCont : Str → Bool
  | [] => false
  | c :: rest => (c == '.' && wDotD rest) || (isUpperAZ c && upCont rest)

/-- The pattern `[A-Z]{2,}\.\w+\.\d+` matched at the start of the string. -/
def entityAt : Str → Bool
  | c1 :: c2 :: rest => isUpperAZ c1 && isUpperAZ c2 && upCont rest
  | _ => false

/-- `/[A-Z]{2,}\.\w+\.\d+/.test(query)`: the entity-code pattern matches at some
position of the string. -/
def hasEntityCode : Str → Bool
  | [] => false
  | c :: rest => entityAt (c :: rest) || hasEntityCode rest

/-- `/\.[A-Z]/.test(query)`: a dot immediately followed by an uppercase letter. -/
def hasDotUpper : Str → Bool
  | [] => false
  | c :: rest =>
      (c == '.' && (match rest with | d :: _ => isUpperAZ d | [] => false)) || hasDotUpper rest

/-- Result of `detectQueryType`. -/
inductive QueryType where
  | keyword
  | vector
deriving DecidableEq, Repr

/-- `detectQueryType` (src/src/index.ts lines 58-65). -/
def detectQueryType (query : Str) : QueryType :=
  if hasEntityCode query then .keyword
  else if decide (query.length < 30) && hasDotUpper query then .keyword
  else .vector

/-- `VECTOR_CONFIDENCE_THRESHOLD = 0.6` (src/src/index.ts line 41), as a rational. -/
def VECTOR_CONFIDENCE_THRESHOLD : ℚ := mkRat 3 5

/-- A row returned by `keywordSearch` / `vectorSearch`; `score` is a JS number,
modelled as a rational. -/
structure SearchResult where
  filename : Str
  content : Str
  source : Str
  source_type : Str
  score : ℚ
deriving DecidableEq, Repr

/-- One iteration of the merge loop (lines 170-175): `seen.set(r.filename, r)` runs
when the filename is absent or `r.score` strictly exceeds the stored score; a JS
`Map` keeps the key position on overwrite and appends new keys. -/
def mergeStep (seen : List SearchResult) (r : SearchResult) : List SearchResult :=
  match seen.find? (fun x => x.filename == r.filename) with
  | some existing =>
      if existing.score < r.score then
        seen.map (fun x => if x.filename == r.filename then r else x)
      else seen
  | none => seen ++ [r]

/-- `[...seen.values()].sort((a, b) => b.score - a.score)`: a stable sort by
descending score (JS `Array.prototype.sort` is stable). -/
def sortByScoreDesc (l : List SearchResult) : List SearchResult :=
  l.mergeSort (fun a b => decide (b.score ≤ a.score))

/-- Lines 162-180 of `searchDocuments`: run vector search; when the top score is
below the confidence threshold and the keyword fallback is non-empty, merge,
re-sort and truncate.  The flag records that the embedding path ran. -/
def vectorPhase (kw vec : List SearchResult) (limit : Nat) : List SearchResult × Bool :=
  match vec with
  | [] => ([], true)
  | v :: _ =>
      if v.score < VECTOR_CONFIDENCE_THRESHOLD then
        if kw.isEmpty then (vec, true)
        else ((sortByScoreDesc ((kw ++ vec).foldl mergeStep [])).take limit, true)
      else (vec, true)

/-- `searchDocuments` (src/src/index.ts lines 146-181): keyword-classified queries
take the keyword path first and return it when non-empty, skipping the embedding
path; everything else goes through the vector phase. -/
def searchDocuments (query : Str) (kw vec : List SearchResult) (limit : Nat) :
    List SearchResult × Bool :=
  if detectQueryType query = QueryType.keyword ∧ kw ≠ [] then (kw, false)
  else vectorPhase kw vec limit

/-- Unfolding of `mergeStep` when the filename is already present. -/
theorem mergeStep_find_some (seen : List SearchResult) (a ex : SearchResult)
    (h : seen.find? (fun x => x.filename == a.filename) = some ex) :
    mergeStep seen a = if ex.score < a.score then
        seen.map (fun x => if x.filename == a.filename then a else x)
      else seen := by
  rw [mergeStep, h]

/-- Unfolding of `mergeStep` when the filename is new. -/
theorem mergeStep_find_none (seen : List SearchResult) (a : SearchResult)
    (h : seen.find? (fun x => x.filename == a.filename) = none) :
    mergeStep seen a = seen ++ [a] := by
  rw [mergeStep, h]

/-- One `mergeStep` preserves the merge-loop invariant: the accumulator draws its
elements from the processed input, has pairwise-distinct filenames, holds for
each filename a maximal-score representative, and covers every processed
filename. -/
theorem mergeStep_inv (processed seen : List SearchResult) (a : SearchResult)
    (h1 : ∀ r ∈ seen, r ∈ processed)
    (h2 : (seen.map (fun r => r.filename)).Nodup)
    (h3 : ∀ r ∈ seen, ∀ x ∈ processed, x.filename = r.filename → x.score ≤ r.score)
    (h4 : ∀ x ∈ processed, ∃ r ∈ seen, r.filename = x.filename) :
    (∀ r ∈ mergeStep seen a, r ∈ processed ++ [a]) ∧
    ((mergeStep seen a).map (fun r => r.filename)).Nodup ∧
    (∀ r ∈ mergeStep seen a, ∀ x ∈ processed ++ [a],
        x.filename = r.filename → x.score ≤ r.score) ∧
    (∀ x ∈ processed ++ [a], ∃ r ∈ mergeStep seen a, r.filename = x.filename) := by
  cases hfind : seen.find? (fun x => x.filename == a.filename) with
  | none =>
      rw [mergeStep_find_none seen a hfind]
      have hnone : ∀ x ∈ seen, ¬(x.filename = a.filename) := by
        intro x hx
        have := List.find?_eq_none.mp hfind x hx
        simpa using this
      have hproc : ∀ x ∈ processed, ¬(x.filename = a.filename) := by
        intro x hx heq
        obtain ⟨r, hr, hrf⟩ := h4 x hx
        exact hnone r hr (hrf.trans heq)
      refine ⟨?_, ?_, ?_, ?_⟩
      · intro r hr
        rcases List.mem_append.mp hr with h | h
        · exact List.mem_append.mpr (Or.inl (h1 r h))
        · exact List.mem_append.mpr (Or.inr h)
      · rw [List.map_append, List.nodup_append]
        refine ⟨h2, by simp, ?_⟩
        intro f hf hg
        obtain ⟨r, hr, hrf⟩ := List.mem_map.mp hf
        have : f = a.filename := by simpa using hg
        exact hnone r hr (hrf.trans this)
      · intro r hr x hx hfx
        rcases List.mem_append.mp hr with hrs | hra
        · rcases List.mem_append.mp hx with hxp | hxa
          · exact h3 r hrs x hxp hfx
          · have hxa' : x = a := by simpa using hxa
            exact absurd (show r.filename = a.filename by rw [← hfx, hxa']) (hnone r hrs)
        · have hra' : r = a := by simpa using hra
          rcases List.mem_append.mp hx with hxp | hxa
          · exact absurd (hra' ▸ hfx) (hproc x hxp)
          · have hxa' : x = a := by simpa using hxa
            rw [hxa', hra']
      · intro x hx
        rcases List.mem_append.mp hx with hxp | hxa
        · obtain ⟨r, hr, hrf⟩ := h4 x hxp
          exact ⟨r, List.mem_append.mpr (Or.inl hr), hrf⟩
        · have hxa' : x = a := by simpa using hxa
          exact ⟨a, List.mem_append.mpr (Or.inr (by simp)), by rw [hxa']⟩
  | some ex =>
      rw [mergeStep_find_some seen a ex hfind]
      have hex_mem : ex ∈ seen := List.mem_of_find?_eq_some hfind
      have hex_f : ex.filename = a.filename := by
        have := List.find?_some hfind
        simpa using this
      have hpt : ∀ x : SearchResult,
          (if x.filename == a.filename then a else x).filename = x.filename := by
        intro x
        by_cases hxy : x.filename = a.filename
        · simp [hxy]
        · simp [hxy]
      by_cases hsc : ex.score < a.score
      · rw [if_pos hsc]
        have hkeys : ((seen.map fun x => if x.filename == a.filename then a else x).map
            (fun r => r.filename)) = seen.map (fun r => r.filename) := by
          rw [List.map_map]
          exact List.map_congr_left (fun x _ => hpt x)
        refine ⟨?_, ?_, ?_, ?_⟩
        · intro r hr
          obtain ⟨y, hy, hyr⟩ := List.mem_map.mp hr
          by_cases hc : y.filename = a.filename
          · rw [if_pos (by simpa using hc)] at hyr
            exact List.mem_append.mpr (Or.inr (by simp [hyr]))
          · rw [if_neg (by simpa using hc)] at hyr
            exact List.mem_append.mpr (Or.inl (hyr ▸ h1 y hy))
        · rw [hkeys]; exact h2
        · intro r hr x hx hfx
          obtain ⟨y, hy, hyr⟩ := List.mem_map.mp hr
          by_cases hc : y.filename = a.filename
          · rw [if_pos (by simpa using hc)] at hyr
            subst hyr
            rcases List.mem_append.mp hx with hxp | hxa
            · have hxf : x.filename = ex.filename := by rw [hex_f]; exact hfx
              exact le_trans (h3 ex hex_mem x hxp hxf) (le_of_lt hsc)
            · have hxa' : x = a := by simpa using hxa
              rw [hxa']
          · rw [if_neg (by simpa using hc)] at hyr
            subst hyr
            rcases List.mem_append.mp hx with hxp | hxa
            · exact h3 y hy x hxp hfx
            · have hxa' : x = a := by simpa using hxa
              exact absurd (show y.filename = a.filename by rw [← hfx, hxa']) hc
        · intro x hx
          rcases List.mem_append.mp hx with hxp | hxa
          · obtain ⟨r, hr, hrf⟩ := h4 x hxp
            exact ⟨(if r.filename == a.filename then a else r),
              List.mem_map.mpr ⟨r, hr, rfl⟩, (hpt r).trans hrf⟩
          · have hxa' : x = a := by simpa using hxa
            exact ⟨(if ex.filename == a.filename then a else ex),
              List.mem_map.mpr ⟨ex, hex_mem, rfl⟩, (hpt ex).trans (hex_f.trans (by rw [hxa']))⟩
      · rw [if_neg hsc]
        refine ⟨?_, h2, ?_, ?_⟩
        · intro r hr
          exact List.mem_append.mpr (Or.inl (h1 r hr))
        · intro r hr x hx hfx
          rcases List.mem_append.mp hx with hxp | hxa
          · exact h3 r hr x hxp hfx
          · have hxa' : x = a := by simpa using hxa
            have hrex : r = ex := by
              apply List.inj_on_of_nodup_map h2 hr hex_mem
              rw [hex_f, ← hfx, hxa']
            rw [hxa', hrex]
            exact le_of_not_lt hsc
        · intro x hx
          rcases List.mem_append.mp hx with hxp | hxa
          · exact h4 x hxp
          · have hxa' : x = a := by simpa using hxa
            exact ⟨ex, hex_mem, hex_f.trans (by rw [hxa'])⟩

/-- The merge-loop invariant carried through the whole fold. -/
theorem foldl_mergeStep_inv (l : List SearchResult) :
    ∀ processed seen, (∀ r ∈ seen, r ∈ processed) →
      ((seen.map (fun r => r.filename)).Nodup) →
      (∀ r ∈ seen, ∀ x ∈ processed, x.filename = r.filename → x.score ≤ r.score) →
      (∀ x ∈ processed, ∃ r ∈ seen, r.filename = x.filename) →
      (∀ r ∈ l.foldl mergeStep seen, r ∈ processed ++ l) ∧
      ((l.foldl mergeStep seen).map (fun r => r.filename)).Nodup ∧
      (∀ r ∈ l.foldl mergeStep seen, ∀ x ∈ processed ++ l,
          x.filename = r.filename → x.score ≤ r.score) ∧
      (∀ x ∈ processed ++ l, ∃ r ∈ l.foldl mergeStep seen, r.filename = x.filename) := by
  induction l with
  | nil =>
      intro processed seen h1 h2 h3 h4
      simpa using ⟨h1, h2, h3, h4⟩
  | cons a l ih =>
      intro processed seen h1 h2 h3 h4
      rw [List.foldl_cons]
      obtain ⟨g1, g2, g3, g4⟩ := mergeStep_inv processed seen a h1 h2 h3 h4
      have := ih (processed ++ [a]) (mergeStep seen a) g1 g2 g3 g4
      simpa [List.append_assoc] using this

/-- Specification of the deduplicating merge starting from the empty map. -/
theorem merged_spec (l : List SearchResult) :
    (∀ r ∈ l.foldl mergeStep [], r ∈ l) ∧
    ((l.foldl mergeStep []).map (fun r => r.filename)).Nodup ∧
    (∀ r ∈ l.foldl mergeStep [], ∀ x ∈ l, x.filename = r.filename → x.score ≤ r.score) ∧
    (∀ x ∈ l, ∃ r ∈ l.foldl mergeStep [], r.filename = x.filename) := by
  have := foldl_mergeStep_inv l [] [] (by simp) (by simp) (by simp) (by simp)
  simpa using this

/-- The stable sort used by the merge yields a descending-score chain. -/
theorem sortByScoreDesc_pairwise (l : List SearchResult) :
    (sortByScoreDesc l).Pairwise (fun a b => b.score ≤ a.score) := by
  have h := @List.sorted_mergeSort SearchResult (fun a b => decide (b.score ≤ a.score))
      (fun a b c hab hbc => by
        rw [decide_eq_true_eq] at *
        exact le_trans hbc hab)
      (fun a b => by
        rcases le_total b.score a.score with h | h
        · simp [h]
        · simp [h]) l
  unfold sortByScoreDesc
  exact h.imp (fun hab => by simpa using hab)

/-- Sorting permutes, hence preserves membership. -/
theorem sortByScoreDesc_mem (l : List SearchResult) (r : SearchResult) :
    r ∈ sortByScoreDesc l ↔ r ∈ l := List.mem_mergeSort

/-- Sorting preserves distinctness of the filenames. -/
theorem sortByScoreDesc_keys (l : List SearchResult)
    (h : (l.map (fun r => r.filename)).Nodup) :
    ((sortByScoreDesc l).map (fun r => r.filename)).Nodup := by
  have hp := List.mergeSort_perm l (fun a b => decide (b.score ≤ a.score))
  exact ((hp.map (fun r => r.filename)).nodup_iff).mpr h

/-- C5: for a vector-classified query whose top semantic score is below the 0.6
confidence threshold and whose keyword path is non-empty, `searchDocuments` runs
the embedding path and returns the filename-deduplicated union of the keyword
and vector results — each returned row drawn from one of the two paths and
carrying the maximal score among same-filename rows of both paths, every path
filename covered before truncation — sorted by score descending and truncated
to `limit`. -/
theorem C5_low_confidence_merge
    (query : Str) (kw vec : List SearchResult) (limit : Nat)
    (v : SearchResult) (rest : List SearchResult)
    (hq : detectQueryType query = QueryType.vector)
    (hvec : vec = v :: rest)
    (hlow : v.score < VECTOR_CONFIDENCE_THRESHOLD)
    (hkw : kw ≠ []) :
    (searchDocuments query kw vec limit).2 = true ∧
    (searchDocuments query kw vec limit).1
      = (sortByScoreDesc ((kw ++ vec).foldl mergeStep [])).take limit ∧
    (∀ r ∈ (searchDocuments query kw vec limit).1, r ∈ kw ++ vec) ∧
    (∀ r ∈ (searchDocuments query kw vec limit).1,
        ∀ x ∈ kw ++ vec, x.filename = r.filename → x.score ≤ r.score) ∧
    ((searchDocuments query kw vec limit).1.Pairwise (fun a b => b.score ≤ a.score)) ∧
    (((searchDocuments query kw vec limit).1.map (fun r => r.filename)).Nodup) ∧
    (searchDocuments query kw vec limit).1.length ≤ limit ∧
    (∀ x ∈ kw ++ vec, ∃ r ∈ (kw ++ vec).foldl mergeStep [], r.filename = x.filename) := by
  subst hvec
  have hroute : searchDocuments query kw (v :: rest) limit
      = ((sortByScoreDesc ((kw ++ v :: rest).foldl mergeStep [])).take limit, true) := by
    rw [searchDocuments,
      if_neg (by rintro ⟨h, -⟩; rw [hq] at h; exact QueryType.noConfusion h)]
    rw [vectorPhase, if_pos hlow, if_neg (by simpa using hkw)]
  obtain ⟨m1, m2, m3, m4⟩ := merged_spec (kw ++ v :: rest)
  refine ⟨by rw [hroute], by rw [hroute], ?_, ?_, ?_, ?_, ?_, m4⟩
  · intro r hr
    rw [hroute] at hr
    exact m1 r ((sortByScoreDesc_mem _ r).mp ((List.take_sublist _ _).subset hr))
  · intro r hr x hx hfx
    rw [hroute] at hr
    exact m3 r ((sortByScoreDesc_mem _ r).mp ((List.take_sublist _ _).subset hr)) x hx hfx
  · rw [hroute]
    exact List.Pairwise.sublist (List.take_sublist _ _) (sortByScoreDesc_pairwise _)
  · rw [hroute]
    exact List.Nodup.sublist
      (List.Sublist.map (fun r : SearchResult => r.filename) (List.take_sublist _ _))
      (sortByScoreDesc_keys _ m2)
  · rw [hroute]
    rw [List.length_take]
    exact inf_le_left

/-- Keyword-path row used in the C5 witness. -/
def c5kw : SearchResult :=
  ⟨str "roles.md", str "keyword hit", str "s", str "t", mkRat 1 1⟩

/-- Vector-path row used in the C5 witness. -/
def c5vec : SearchResult :=
  ⟨str "other.md", str "vector hit", str "s", str "t", mkRat 1 2⟩

/-- Witness for C5 at a concrete vector-classified query with a low-confidence
top score. -/
theorem C5_low_confidence_merge_witness :
    (searchDocuments (str "hello world") [c5kw] [c5vec] 5).2 = true ∧
    (searchDocuments (str "hello world") [c5kw] [c5vec] 5).1
      = (sortByScoreDesc (([c5kw] ++ [c5vec]).foldl mergeStep [])).take 5 :=
  have h := C5_low_confidence_merge (str "hello world") [c5kw] [c5vec] 5 c5vec []
    (by decide) rfl (by decide) (by decide)
  ⟨h.1, h.2.1⟩

/-- C6: a query matching either identifier pattern is classified `keyword`, and a
keyword-classified query with a non-empty keyword result list gets exactly that
list back with the embedding path never invoked (the flag stays `false`). -/
theorem C6_keyword_first (query : Str) (kw vec : List SearchResult) (limit : Nat)
    (hq : detectQueryType query = QueryType.keyword) (hkw : kw ≠ []) :
    searchDocuments query kw vec limit = (kw, false) ∧
    (∀ q : Str, hasEntityCode q = true → detectQueryType q = QueryType.keyword) ∧
    (∀ q : Str, q.length < 30 → hasDotUpper q = true →
      detectQueryType q = QueryType.keyword) := by
  refine ⟨?_, ?_, ?_⟩
  · rw [searchDocuments, if_pos ⟨hq, hkw⟩]
  · intro q hq'
    rw [detectQueryType, if_pos hq']
  · intro q hlen hdot
    rw [detectQueryType]
    by_cases he : hasEntityCode q = true
    · rw [if_pos he]
    · rw [if_neg he, if_pos (by simp [hdot, hlen])]

/-- Keyword-path row used in the C6 witness. -/
def c6kw : SearchResult :=
  ⟨str "DP.AGENT.001.md", str "agent doc", str "s", str "t", mkRat 1 1⟩

/-- Vector-path row used in the C6 witness (never reached). -/
def c6vec : SearchResult :=
  ⟨str "other.md", str "vector hit", str "s", str "t", mkRat 9 10⟩

/-- Witness for C6 at the concrete entity-code query `DP.AGENT.001`. -/
theorem C6_keyword_first_witness :
    searchDocuments (str "DP.AGENT.001") [c6kw] [c6vec] 5 = ([c6kw], false) :=
  (C6_keyword_first (str "DP.AGENT.001") [c6kw] [c6vec] 5 (by decide) (by decide)).1

/-! ### get_document (src/src/index.ts) -/

/-- The SQL source filter `(${src}::text IS NULL OR source = ${src})`. -/
def srcMatches (src : Option Str) (r : StoreRow) : Bool :=
  match src with
  | none => true
  | some s => r.source == s

/-- `getDocument` (src/src/index.ts lines 183-207): the first row whose filename
matches under the optional source filter (`LIMIT 1`), or `null`. -/
def getDocument (store : List StoreRow) (filename : Str) (src : Option Str) :
    Option StoreRow :=
  store.find? (fun r => r.filename == filename && srcMatches src r)

/-- Shape of the JSON-RPC reply for a `get_document` tool call: the text payload,
the `isError` flag inside the `result` member, and the top-level JSON-RPC `error`
member (`none` when the reply is a `result`). -/
structure McpToolResponse where
  text : Str
  isError : Bool
  rpcError : Option Str
deriving DecidableEq, Repr

/-- The `get_document` branch of `handleMcpRequest` (src/src/index.ts lines
324-338), paired with the store it leaves behind: a missing document produces a
normal `result` reply carrying the absence marker text and `isError: true`, never
a JSON-RPC `error` member, and the handler only reads the store. -/
def handleGetDocument (store : List StoreRow) (filename : Str) (src : Option Str) :
    McpToolResponse × List StoreRow :=
  match getDocument store filename src with
  | none => (⟨str "Document not found", true, none⟩, store)
  | some doc => (⟨doc.content, false, none⟩, store)

/-- C8: when no store row matches the filename under the optional source filter,
`get_document` yields `null` and the handler replies with the explicit
"Document not found" marker as a normal result — the JSON-RPC `error` member
stays empty — and the store is unchanged. -/
theorem C8_not_found (store : List StoreRow) (filename : Str) (src : Option Str)
    (habsent : ∀ r ∈ store, ¬(r.filename = filename ∧ srcMatches src r = true)) :
    getDocument store filename src = none ∧
    handleGetDocument store filename src
      = (⟨str "Document not found", true, none⟩, store) ∧
    (handleGetDocument store filename src).1.rpcError = none ∧
    (handleGetDocument store filename src).2 = store := by
  have hnone : getDocument store filename src = none := by
    rw [getDocument, List.find?_eq_none]
    intro r hr hp
    rw [Bool.and_eq_true] at hp
    exact habsent r hr ⟨by simpa using hp.1, hp.2⟩
  refine ⟨hnone, ?_, ?_, ?_⟩
  · rw [handleGetDocument, hnone]
  · rw [handleGetDocument, hnone]
  · rw [handleGetDocument, hnone]

/-- Store row used in the C8 witness. -/
def c8row : StoreRow :=
  ⟨str "guide.md::Intro", str "intro body", str "s1", str "t1", str "h1", [1, 2]⟩

/-- Witness for C8 at a concrete store and a filename absent from it. -/
theorem C8_not_found_witness :
    handleGetDocument [c8row] (str "missing.md") (some (str "s1"))
      = (⟨str "Document not found", true, none⟩, [c8row]) :=
  (C8_not_found [c8row] (str "missing.md") (some (str "s1")) (by decide)).2.1

end KnowledgeMcp
